import Mathlib

/-!
# Verification of the scheduling Turing machine

Shallow embedding of `scheduling-turing-machine.py`: a five-state tape
automaton that tokenizes a list of production orders written on a tape
(one `#` separator followed by the decimal digits of each order, with a
trailing blank `B`), committing each completed number to a greedy
earliest-available-machine scheduler.

Modelling conventions:
* Python `int` is modelled by `Int` (ordinary `Nat` where the source value
  is provably non-negative), Python float arithmetic on times by `ℚ`.
* Tape symbols (Python one-character strings) are modelled by `Char`.
* Python exceptions are modelled by `Except String`; the error strings
  follow the source messages (the quote characters around the state name
  and symbol in the `f`-string are elided).
* Python list indexing `l[i]` with a possibly negative index is modelled
  by `pyIndex` (negative indices wrap from the end, as in Python;
  anything further out raises `IndexError`).
* The run loop of `process_orders` is modelled by the fuel-indexed
  `runFor`; termination is stated as the existence of a fuel making the
  machine reach the final state.
* `Config.emitted` is a ghost field recording the order values handed to
  `_find_best_machine` by the extraction hook, in order; it changes no
  control flow.
-/

/-- Direction for tape head movement (`Direction` enum in the source). -/
inductive Direction where
  | L
  | R
deriving DecidableEq

/-- The five named states created by `_setup_states`. -/
inductive TMState where
  | START
  | READ
  | MARK
  | NEXT
  | FINAL
deriving DecidableEq

/-- The `name` attribute of a state. -/
def TMState.name : TMState → String
  | .START => "START"
  | .READ => "READ"
  | .MARK => "MARK"
  | .NEXT => "NEXT"
  | .FINAL => "FINAL"

/-- The `is_final` flag: set exactly for `FINAL` in `_setup_states`. -/
def TMState.is_final : TMState → Bool
  | .FINAL => true
  | _ => false

/-- A transition rule (`Transition` dataclass in the source). -/
structure Transition where
  next_state : TMState
  write_symbol : Char
  direction : Direction
deriving DecidableEq

/-- The transition table built by `_setup_states`: for each state, the
mapping from read symbol to transition.  Digits are exactly the characters
`'0'`–`'9'` (`Char.isDigit`). -/
def transitions : TMState → Char → Option Transition
  | .START, c =>
    if c = 'B' then some ⟨.FINAL, 'B', .R⟩
    else if c = '#' then some ⟨.READ, '#', .R⟩
    else if c.isDigit then some ⟨.READ, c, .R⟩
    else none
  | .READ, c =>
    if c.isDigit then some ⟨.READ, c, .R⟩
    else if c = '#' then some ⟨.MARK, '#', .L⟩
    else if c = 'B' then some ⟨.MARK, 'B', .L⟩
    else none
  | .MARK, c =>
    if c.isDigit then some ⟨.MARK, '*', .L⟩
    else if c = '#' then some ⟨.NEXT, '#', .R⟩
    else none
  | .NEXT, c =>
    if c.isDigit then some ⟨.READ, c, .R⟩
    else if c = '#' then some ⟨.READ, '#', .R⟩
    else if c = 'B' then some ⟨.FINAL, 'B', .R⟩
    else if c = '*' then some ⟨.NEXT, '*', .R⟩
    else none
  | .FINAL, _ => none

/-- Helper for `natDigits`: big-endian decimal digit characters of `n`,
with fuel (structural recursion, so that concrete runs compute by kernel
reduction); `n` steps of fuel always suffice. -/
def natDigitsGo : Nat → Nat → List Char
  | _, 0 => []
  | 0, _ + 1 => []
  | fuel + 1, n + 1 =>
    natDigitsGo fuel ((n + 1) / 10) ++ [Nat.digitChar ((n + 1) % 10)]

/-- Decimal digit string of a natural number, as produced by Python
`str` on a non-negative integer: big-endian, no leading zeros, `"0"` for
zero. -/
def natDigits (n : Nat) : List Char :=
  if n = 0 then ['0'] else natDigitsGo n n

/-- Python `str` on an arbitrary integer (a leading `-` for negatives). -/
def intStr (i : Int) : List Char :=
  if i < 0 then '-' :: natDigits i.natAbs else natDigits i.toNat

/-- Python `int("".join(ds))` on a list of digit characters. -/
def digitsToNat (ds : List Char) : Nat :=
  ds.foldl (fun a c => 10 * a + (c.toNat - 48)) 0

/-- `_prepare_tape`: a `#` separator followed by the decimal digits of
each order, and a single trailing blank `B`. -/
def prepare_tape (orders : List Int) : List Char :=
  (orders.flatMap fun o => '#' :: intStr o) ++ ['B']

/-- The scheduling data of `SchedulingTuringMachine`: per-machine
cumulative times and per-machine logs of `(order_size, start_time)`
pairs. -/
structure Sched where
  machine_times : List ℚ
  machine_schedules : List (List (Int × ℚ))
deriving DecidableEq

/-- The scheduling data set up by `__init__`: `[0] * num_machines` and
`num_machines` empty logs (an empty list when `num_machines ≤ 0`, as in
Python). -/
def initSched (num_machines : Int) : Sched :=
  { machine_times := List.replicate num_machines.toNat 0
    machine_schedules := List.replicate num_machines.toNat [] }

/-- The scan loop of `_find_best_machine`: `min_time` starts at
`float("inf")` (modelled by `none`) and each strictly smaller
`machine_times[i]` becomes the new champion, so ties keep the earlier
index.  `i` is the index of the first element of the remaining list. -/
def findBestAux : List ℚ → Nat → Nat × Option ℚ → Nat × Option ℚ
  | [], _, acc => acc
  | t :: ts, i, acc =>
    match acc.2 with
    | none => findBestAux ts (i + 1) (i, some t)
    | some m => if t < m then findBestAux ts (i + 1) (i, some t) else findBestAux ts (i + 1) acc

/-- The `best_machine` index computed by the scan loop of
`_find_best_machine` (initial accumulator `best_machine = 0`,
`min_time = inf`). -/
def bestIndex (s : Sched) : Nat :=
  (findBestAux s.machine_times 0 (0, none)).1

/-- The `min_time` value computed by the scan loop of
`_find_best_machine` (`0` as a dummy for the never-read infinite case). -/
def bestMin (s : Sched) : ℚ :=
  (findBestAux s.machine_times 0 (0, none)).2.getD 0

/-- The state update of `_find_best_machine`:
`machine_times[best] += order_size / production_rate` and
`machine_schedules[best].append((order_size, min_time))`. -/
def assignOrder (rate : ℚ) (s : Sched) (order_size : Int) : Sched :=
  { machine_times :=
      s.machine_times.set (bestIndex s)
        (s.machine_times.getD (bestIndex s) 0 + (order_size : ℚ) / rate)
    machine_schedules :=
      s.machine_schedules.set (bestIndex s)
        (s.machine_schedules.getD (bestIndex s) [] ++ [(order_size, bestMin s)]) }

/-- Message of a Python `ZeroDivisionError`. -/
def zeroDivisionMessage : String :=
  "ZeroDivisionError: division by zero"

/-- Message of a Python `IndexError` on list indexing. -/
def indexErrorMessage : String :=
  "IndexError: list index out of range"

/-- `_find_best_machine`: scan for the least-loaded machine, then update
its time and log and return the chosen index.  Division by a zero
`production_rate` and the out-of-range updates that Python would hit when
`num_machines` is not positive are modelled as errors. -/
def find_best_machine (s : Sched) (rate : ℚ) (order_size : Int) :
    Except String (Nat × Sched) :=
  if rate = 0 then .error zeroDivisionMessage
  else if bestIndex s < s.machine_times.length then
    if bestIndex s < s.machine_schedules.length then
      .ok (bestIndex s, assignOrder rate s order_size)
    else .error indexErrorMessage
  else .error indexErrorMessage

/-- `_generate_schedule`: for each machine, its ordered log and its total
cumulative time. -/
def generate_schedule (s : Sched) : List (List (Int × ℚ) × ℚ) :=
  (List.range s.machine_schedules.length).map
    fun i => (s.machine_schedules.getD i [], s.machine_times.getD i 0)

/-- A full configuration of the machine during `process_orders`:
the tape, head position, current state and digit buffer of the automaton,
the scheduling data, and the ghost trace `emitted` of order values handed
to `_find_best_machine`. -/
structure Config where
  tape : List Char
  head_position : Int
  current_state : TMState
  current_number : List Char
  sched : Sched
  emitted : List Int
deriving DecidableEq

/-- Python list index resolution: indices in `[0, len)` are used as is,
indices in `[-len, 0)` wrap from the end, anything else raises
`IndexError` (`none`). -/
def pyIndex (len : Nat) (i : Int) : Option Nat :=
  if 0 ≤ i then (if i < (len : Int) then some i.toNat else none)
  else (if 0 ≤ (len : Int) + i then some ((len : Int) + i).toNat else none)

/-- Head movement: `+1` for `RIGHT`, `-1` for `LEFT`. -/
def dirDelta : Direction → Int
  | .R => 1
  | .L => -1

/-- The message of the exception raised by `process_orders` when no
transition exists for the current state and symbol (quotes of the
Python `f`-string elided). -/
def noTransitionMessage (st : TMState) (sym : Char) : String :=
  "No valid transition for state " ++ st.name ++ " and symbol " ++ String.mk [sym]

/-- One iteration of the `process_orders` loop body: read the symbol under
the head, look up the transition (raising if absent), run the extraction
hook (`READ` on a digit appends to `current_number`; `MARK` with a
non-empty buffer commits the number to `_find_best_machine` and clears the
buffer), then write, switch state and move the head. -/
def step (rate : ℚ) (c : Config) : Except String Config :=
  match pyIndex c.tape.length c.head_position with
  | none => .error indexErrorMessage
  | some k =>
    let sym := c.tape.getD k ' '
    match transitions c.current_state sym with
    | none => .error (noTransitionMessage c.current_state sym)
    | some t =>
      let move := fun (buf : List Char) (sch : Sched) (em : List Int) =>
        Config.mk (c.tape.set k t.write_symbol)
          (c.head_position + dirDelta t.direction) t.next_state buf sch em
      if c.current_state = .READ then
        .ok (move (if sym.isDigit then c.current_number ++ [sym] else c.current_number)
          c.sched c.emitted)
      else if c.current_state = .MARK ∧ c.current_number ≠ [] then
        match find_best_machine c.sched rate (digitsToNat c.current_number : Int) with
        | .error e => .error e
        | .ok r => .ok (move [] r.2 (c.emitted ++ [(digitsToNat c.current_number : Int)]))
      else .ok (move c.current_number c.sched c.emitted)

/-- Run the `process_orders` loop for at most `fuel` iterations: the loop
body is applied while the current state is not final (fuel only bounds the
number of iterations; the Python loop itself is unbounded). -/
def runFor (rate : ℚ) : Nat → Config → Except String Config
  | 0, c => .ok c
  | fuel + 1, c =>
    if c.current_state.is_final then .ok c
    else
      match step rate c with
      | .error e => .error e
      | .ok c' => runFor rate fuel c'

/-- The configuration at the top of the `process_orders` loop on a freshly
constructed `SchedulingTuringMachine(num_machines, production_rate)`:
prepared tape, head at `0`, state `START`, empty buffer, zeroed
scheduling data. -/
def initConfig (num_machines : Int) (orders : List Int) : Config :=
  { tape := prepare_tape orders
    head_position := 0
    current_state := .START
    current_number := []
    sched := initSched num_machines
    emitted := [] }

/-- Exact number of loop iterations used to consume the encoding of
`orders` (3 per tape cell of a number plus 3 per number). -/
def stepsFor (orders : List Int) : Nat :=
  (orders.map fun o => 3 * (intStr o).length + 3).sum

/-- Exact number of loop iterations of a complete successful run
(the extra step is the final transition on the blank). -/
def totalFuel (orders : List Int) : Nat :=
  stepsFor orders + 1

/-- The number region of the prepared tape (everything before the final
blank): one `#` and the digits of each order. -/
def encodeOrders (orders : List Int) : List Char :=
  orders.flatMap fun o => '#' :: intStr o

/-- The number region of the tape after a successful run: each digit
replaced by `*`. -/
def markedOrders (orders : List Int) : List Char :=
  orders.flatMap fun o => '#' :: List.replicate (intStr o).length '*'

/-- The tape left behind by a successful run: every digit overwritten
with `*`, separators and the blank unchanged. -/
def markedTape (orders : List Int) : List Char :=
  (orders.flatMap fun o => '#' :: List.replicate (intStr o).length '*') ++ ['B']

/-- The scheduling data after committing `orders` in order to
`_find_best_machine`, starting from `s`. -/
def foldAssign (rate : ℚ) (s : Sched) (orders : List Int) : Sched :=
  orders.foldl (assignOrder rate) s

/-- Model of `SchedulingTuringMachine.__init__`: it stores the two
configuration parameters and zeroed scheduling data.  The body of the
Python constructor contains no validation and no `raise`, so the
construction always succeeds; the `Except` codomain only records that the
claimed rejection of bad configurations would have to surface here. -/
def STM.init (num_machines : Int) (production_rate : ℚ) :
    Except String (Int × ℚ × Sched) :=
  .ok (num_machines, production_rate, initSched num_machines)

/-! ### List and character helper lemmas -/

theorem isDigit_ne_hash {c : Char} (h : c.isDigit = true) : c ≠ '#' := by
  rintro rfl; exact absurd h (by decide)

theorem isDigit_ne_blank {c : Char} (h : c.isDigit = true) : c ≠ 'B' := by
  rintro rfl; exact absurd h (by decide)

theorem isDigit_ne_star {c : Char} (h : c.isDigit = true) : c ≠ '*' := by
  rintro rfl; exact absurd h (by decide)

theorem pyIndex_coe (len k : Nat) (h : k < len) : pyIndex len (k : Int) = some k := by
  simp [pyIndex, h]

theorem getD_append_length (pre : List Char) (x : Char) (rest : List Char) (d : Char) :
    (pre ++ x :: rest).getD pre.length d = x := by
  induction pre with
  | nil => rfl
  | cons a l ih => simpa using ih

theorem set_append_length (pre : List Char) (x y : Char) (rest : List Char) :
    (pre ++ x :: rest).set pre.length y = pre ++ y :: rest := by
  induction pre with
  | nil => rfl
  | cons a l ih => simp [ih]

theorem getD_replicate_lt {α : Type} (a d : α) :
    ∀ n i, i < n → (List.replicate n a).getD i d = a := by
  intro n
  induction n with
  | zero => intro i h; omega
  | succ n ih =>
    intro i h
    cases i with
    | zero => rfl
    | succ j =>
      rw [List.replicate_succ]
      simpa using ih j (by omega)

theorem sum_set_getD (l : List ℚ) : ∀ (i : Nat) (x : ℚ), i < l.length →
    (l.set i (l.getD i 0 + x)).sum = l.sum + x := by
  induction l with
  | nil => intro i x h; simp at h
  | cons a t ih =>
    intro i x h
    cases i with
    | zero =>
      simp only [List.getD_cons_zero, List.set_cons_zero, List.sum_cons]
      ring
    | succ j =>
      simp only [List.getD_cons_succ, List.set_cons_succ, List.sum_cons]
      rw [ih j x (by simpa using h)]
      ring

theorem map_getD_range (l : List ℚ) :
    (List.range l.length).map (fun i => l.getD i 0) = l := by
  induction l with
  | nil => simp
  | cons a t ih =>
    rw [List.length_cons, List.range_succ_eq_map, List.map_cons, List.map_map]
    have hcomp : ((fun i => (a :: t).getD i 0) ∘ Nat.succ) = fun i => t.getD i 0 := by
      funext i
      simp [Function.comp, List.getD_cons_succ]
    rw [hcomp, ih]
    simp

/-! ### Decimal representation lemmas -/

theorem natDigitsGo_eq : ∀ (fuel n : Nat), n ≤ fuel →
    natDigitsGo fuel n = ((Nat.digits 10 n).map Nat.digitChar).reverse := by
  intro fuel
  induction fuel with
  | zero =>
    intro n h
    have hn : n = 0 := by omega
    subst hn
    simp [natDigitsGo]
  | succ fuel ih =>
    intro n h
    cases n with
    | zero => simp [natDigitsGo]
    | succ m =>
      have hdiv : (m + 1) / 10 ≤ fuel := by
        have := Nat.div_lt_self (Nat.succ_pos m) (by norm_num : 1 < 10)
        omega
      rw [show natDigitsGo (fuel + 1) (m + 1)
          = natDigitsGo fuel ((m + 1) / 10) ++ [Nat.digitChar ((m + 1) % 10)] from rfl,
        ih ((m + 1) / 10) hdiv,
        Nat.digits_def' (by norm_num : (1 : Nat) < 10) (Nat.succ_pos m)]
      simp

theorem natDigits_eq (n : Nat) :
    natDigits n = if n = 0 then ['0'] else ((Nat.digits 10 n).map Nat.digitChar).reverse := by
  unfold natDigits
  split
  · rfl
  · exact natDigitsGo_eq n n (le_refl n)

theorem digitChar_isDigit {d : Nat} (h : d < 10) : (Nat.digitChar d).isDigit = true := by
  interval_cases d <;> decide

theorem digitChar_toNat {d : Nat} (h : d < 10) : (Nat.digitChar d).toNat - 48 = d := by
  interval_cases d <;> decide

theorem natDigits_ne_nil (n : Nat) : natDigits n ≠ [] := by
  rw [natDigits_eq]
  split
  · simp
  · simpa using Nat.digits_ne_nil_iff_ne_zero.mpr (by assumption)

theorem natDigits_isDigit (n : Nat) : ∀ c ∈ natDigits n, c.isDigit = true := by
  intro c hc
  rw [natDigits_eq] at hc
  split at hc
  · simp at hc; subst hc; decide
  · simp only [List.mem_reverse, List.mem_map] at hc
    obtain ⟨d, hd, rfl⟩ := hc
    exact digitChar_isDigit (Nat.digits_lt_base (by norm_num) hd)

theorem digitsToNat_append_singleton (xs : List Char) (c : Char) :
    digitsToNat (xs ++ [c]) = 10 * digitsToNat xs + (c.toNat - 48) := by
  unfold digitsToNat
  rw [List.foldl_append]
  rfl

theorem digitsToNat_rev_map (ds : List Nat) (h : ∀ d ∈ ds, d < 10) :
    digitsToNat ((ds.map Nat.digitChar).reverse) = Nat.ofDigits 10 ds := by
  induction ds with
  | nil => rfl
  | cons d t ih =>
    simp only [List.map_cons, List.reverse_cons]
    rw [digitsToNat_append_singleton, ih (fun x hx => h x (List.mem_cons_of_mem _ hx)),
      digitChar_toNat (h d (List.mem_cons_self _ _)), Nat.ofDigits_cons]
    ring

theorem digitsToNat_natDigits (n : Nat) : digitsToNat (natDigits n) = n := by
  rw [natDigits_eq]
  split
  · subst n
    decide
  · rw [digitsToNat_rev_map _ (fun d hd => Nat.digits_lt_base (by norm_num) hd),
      Nat.ofDigits_digits]

/-! ### Run-loop infrastructure -/

theorem runFor_zero (rate : ℚ) (c : Config) : runFor rate 0 c = .ok c := rfl

theorem runFor_final {c : Config} (h : c.current_state.is_final = true) (rate : ℚ) (n : Nat) :
    runFor rate n c = .ok c := by
  cases n with
  | zero => rfl
  | succ n => simp [runFor, h]

theorem runFor_add (rate : ℚ) (a b : Nat) (c : Config) :
    runFor rate (a + b) c = Except.bind (runFor rate a c) (runFor rate b) := by
  induction a generalizing c with
  | zero => simp [runFor_zero, Except.bind]
  | succ a ih =>
    rw [show a + 1 + b = (a + b) + 1 by omega]
    cases hf : c.current_state.is_final with
    | true => simp [runFor_final hf, Except.bind]
    | false =>
      simp only [runFor, hf, Bool.false_eq_true, if_false]
      cases hs : step rate c with
      | error e => rfl
      | ok c' => exact ih c'

theorem runFor_trans {rate : ℚ} {a : Nat} {c c' : Config}
    (h : runFor rate a c = .ok c') (b : Nat) :
    runFor rate (a + b) c = runFor rate b c' := by
  rw [runFor_add, h]
  rfl

theorem runFor_error_absorb {rate : ℚ} {a : Nat} {c : Config} {e : String}
    (h : runFor rate a c = .error e) (b : Nat) :
    runFor rate (a + b) c = .error e := by
  rw [runFor_add, h]
  rfl

theorem runFor_one {rate : ℚ} {c : Config} (h : c.current_state.is_final = false) :
    runFor rate 1 c = step rate c := by
  cases hs : step rate c <;> simp [runFor, h, hs]

/-- Evaluation of one loop iteration at a head position inside the tape:
the tape is split as `pre ++ x :: rest` with the head on `x`. -/
theorem step_mid (rate : ℚ) (pre : List Char) (x : Char) (rest : List Char)
    (st : TMState) (buf : List Char) (S : Sched) (E : List Int) (t : Transition)
    (ht : transitions st x = some t) :
    step rate ⟨pre ++ x :: rest, (pre.length : Int), st, buf, S, E⟩ =
      (if st = .READ then
        .ok ⟨pre ++ t.write_symbol :: rest, (pre.length : Int) + dirDelta t.direction,
          t.next_state, if x.isDigit then buf ++ [x] else buf, S, E⟩
      else if st = .MARK ∧ buf ≠ [] then
        match find_best_machine S rate (digitsToNat buf : Int) with
        | .error e => .error e
        | .ok r => .ok ⟨pre ++ t.write_symbol :: rest, (pre.length : Int) + dirDelta t.direction,
            t.next_state, [], r.2, E ++ [(digitsToNat buf : Int)]⟩
      else
        .ok ⟨pre ++ t.write_symbol :: rest, (pre.length : Int) + dirDelta t.direction,
          t.next_state, buf, S, E⟩) := by
  have hk : pre.length < (pre ++ x :: rest).length := by simp
  simp only [step, pyIndex_coe _ _ hk, getD_append_length, ht, set_append_length]

/-! ### Greedy scheduler lemmas -/

theorem findBestAux_spec (ts : List ℚ) : ∀ (i b : Nat) (m : ℚ),
    ∃ b' m', findBestAux ts i (b, some m) = (b', some m') ∧ m' ≤ m ∧
      (∀ k, k < ts.length → m' ≤ ts.getD k 0) ∧
      ((b' = b ∧ m' = m) ∨
        ∃ k, k < ts.length ∧ b' = i + k ∧ ts.getD k 0 = m' ∧ m' < m ∧
          ∀ j, j < k → m' < ts.getD j 0) := by
  induction ts with
  | nil =>
    intro i b m
    refine ⟨b, m, rfl, le_refl m, ?_, Or.inl ⟨rfl, rfl⟩⟩
    intro k hk
    simp at hk
  | cons t ts ih =>
    intro i b m
    by_cases hlt : t < m
    · have hstep : findBestAux (t :: ts) i (b, some m) = findBestAux ts (i + 1) (i, some t) := by
        simp [findBestAux, hlt]
      obtain ⟨b', m', heq, hle, hmin, hch⟩ := ih (i + 1) i t
      refine ⟨b', m', by rw [hstep, heq], le_of_lt (lt_of_le_of_lt hle hlt), ?_, ?_⟩
      · intro k hk
        cases k with
        | zero => simpa using hle
        | succ j => simpa using hmin j (by simpa using hk)
      · rcases hch with ⟨hb, hm⟩ | ⟨k, hk, hb, hgd, hlt', hstrict⟩
        · exact Or.inr ⟨0, by simp, by omega, by simpa using hm.symm, hm ▸ hlt, by omega⟩
        · refine Or.inr ⟨k + 1, by simpa using hk, by omega, by simpa using hgd, lt_trans hlt' hlt, ?_⟩
          intro j hj
          cases j with
          | zero => simpa using lt_of_lt_of_le hlt' (le_refl t)
          | succ j' => simpa using hstrict j' (by omega)
    · have hstep : findBestAux (t :: ts) i (b, some m) = findBestAux ts (i + 1) (b, some m) := by
        simp [findBestAux, hlt]
      obtain ⟨b', m', heq, hle, hmin, hch⟩ := ih (i + 1) b m
      have hmt : m ≤ t := le_of_not_lt hlt
      refine ⟨b', m', by rw [hstep, heq], hle, ?_, ?_⟩
      · intro k hk
        cases k with
        | zero => simpa using le_trans hle hmt
        | succ j => simpa using hmin j (by simpa using hk)
      · rcases hch with ⟨hb, hm⟩ | ⟨k, hk, hb, hgd, hlt', hstrict⟩
        · exact Or.inl ⟨hb, hm⟩
        · refine Or.inr ⟨k + 1, by simpa using hk, by omega, by simpa using hgd, hlt', ?_⟩
          intro j hj
          cases j with
          | zero => simpa using lt_of_lt_of_le hlt' hmt
          | succ j' => simpa using hstrict j' (by omega)

theorem bestIndex_spec (s : Sched) (h : 0 < s.machine_times.length) :
    bestIndex s < s.machine_times.length ∧
    bestMin s = s.machine_times.getD (bestIndex s) 0 ∧
    (∀ k, k < s.machine_times.length → bestMin s ≤ s.machine_times.getD k 0) ∧
    (∀ j, j < bestIndex s → bestMin s < s.machine_times.getD j 0) := by
  obtain ⟨t, ts, hts⟩ : ∃ t ts, s.machine_times = t :: ts := by
    cases hc : s.machine_times with
    | nil => rw [hc] at h; simp at h
    | cons t ts => exact ⟨t, ts, rfl⟩
  have h0 : findBestAux (t :: ts) 0 (0, none) = findBestAux ts 1 (0, some t) := rfl
  obtain ⟨b', m', heq, hle, hmin, hch⟩ := findBestAux_spec ts 1 0 t
  unfold bestIndex bestMin
  rw [hts, h0, heq]
  rcases hch with ⟨hb, hm⟩ | ⟨k, hk, hb, hgd, hlt', hstrict⟩
  · subst hb hm
    refine ⟨by simp, by simp, ?_, by omega⟩
    intro k hk
    cases k with
    | zero => simp
    | succ j =>
      simpa using hmin j (by simpa using hk)
  · subst hb
    refine ⟨by simp only [List.length_cons]; omega, ?_, ?_, ?_⟩
    · simp only [Option.getD_some]
      rw [show 1 + k = k + 1 by omega, List.getD_cons_succ, hgd]
    · intro j hj
      cases j with
      | zero => simpa using le_of_lt hlt'
      | succ j' => simpa using hmin j' (by simpa using hj)
    · intro j hj
      cases j with
      | zero => simpa using hlt'
      | succ j' => simpa using hstrict j' (by omega)

theorem find_best_machine_ok (s : Sched) (rate : ℚ) (o : Int)
    (hrate : rate ≠ 0) (hne : 0 < s.machine_times.length)
    (hlen : s.machine_schedules.length = s.machine_times.length) :
    find_best_machine s rate o = .ok (bestIndex s, assignOrder rate s o) := by
  have hb := (bestIndex_spec s hne).1
  simp [find_best_machine, hrate, hb, hlen ▸ hb]

theorem assignOrder_times_length (rate : ℚ) (s : Sched) (o : Int) :
    (assignOrder rate s o).machine_times.length = s.machine_times.length := by
  simp [assignOrder]

theorem assignOrder_schedules_length (rate : ℚ) (s : Sched) (o : Int) :
    (assignOrder rate s o).machine_schedules.length = s.machine_schedules.length := by
  simp [assignOrder]

theorem assignOrder_times_sum (rate : ℚ) (s : Sched) (o : Int)
    (h : 0 < s.machine_times.length) :
    (assignOrder rate s o).machine_times.sum = s.machine_times.sum + (o : ℚ) / rate := by
  have hb := (bestIndex_spec s h).1
  simpa [assignOrder] using sum_set_getD s.machine_times (bestIndex s) ((o : ℚ) / rate) hb

theorem foldAssign_times_length (rate : ℚ) :
    ∀ (ords : List Int) (s : Sched),
      (foldAssign rate s ords).machine_times.length = s.machine_times.length := by
  intro ords
  induction ords with
  | nil => intro s; rfl
  | cons o t ih =>
    intro s
    simpa [foldAssign, assignOrder_times_length] using
      (ih (assignOrder rate s o)).trans (assignOrder_times_length rate s o)

theorem foldAssign_schedules_length (rate : ℚ) :
    ∀ (ords : List Int) (s : Sched),
      (foldAssign rate s ords).machine_schedules.length = s.machine_schedules.length := by
  intro ords
  induction ords with
  | nil => intro s; rfl
  | cons o t ih =>
    intro s
    simpa [foldAssign, assignOrder_schedules_length] using
      (ih (assignOrder rate s o)).trans (assignOrder_schedules_length rate s o)

theorem foldAssign_times_sum (rate : ℚ) :
    ∀ (ords : List Int) (s : Sched), 0 < s.machine_times.length →
      (foldAssign rate s ords).machine_times.sum =
        s.machine_times.sum + (ords.map fun o : Int => (o : ℚ)).sum / rate := by
  intro ords
  induction ords with
  | nil => intro s _; simp [foldAssign]
  | cons o t ih =>
    intro s hs
    have h1 : 0 < (assignOrder rate s o).machine_times.length := by
      rw [assignOrder_times_length]; exact hs
    have : foldAssign rate s (o :: t) = foldAssign rate (assignOrder rate s o) t := rfl
    rw [this, ih _ h1, assignOrder_times_sum rate s o hs, List.map_cons, List.sum_cons,
      add_div, add_assoc]

/-! ### Phase lemmas for the run loop -/

/-- READ phase: scanning `j ≤ |ds|` digit cells to the right appends them
to the buffer, moves the head right and leaves everything else
unchanged. -/
theorem read_phase (rate : ℚ) :
    ∀ (ds : List Char), (∀ c ∈ ds, c.isDigit = true) →
    ∀ (pre rest buf : List Char) (S : Sched) (E : List Int) (j : Nat), j ≤ ds.length →
    runFor rate j ⟨pre ++ ds ++ rest, (pre.length : Int), .READ, buf, S, E⟩ =
      .ok ⟨pre ++ ds ++ rest, ((pre.length + j : Nat) : Int), .READ, buf ++ ds.take j, S, E⟩ := by
  intro ds
  induction ds with
  | nil =>
    intro _ pre rest buf S E j hj
    have hj0 : j = 0 := by simpa using hj
    subst hj0
    simp [runFor_zero]
  | cons d ds ih =>
    intro hdig pre rest buf S E j hj
    cases j with
    | zero => simp [runFor_zero]
    | succ j' =>
      have hd : d.isDigit = true := hdig d (List.mem_cons_self _ _)
      have ht : transitions .READ d = some ⟨.READ, d, .R⟩ := by simp [transitions, hd]
      have hs := step_mid rate pre d (ds ++ rest) .READ buf S E _ ht
      have h1 : runFor rate 1 ⟨pre ++ (d :: ds) ++ rest, (pre.length : Int), .READ, buf, S, E⟩ =
          .ok ⟨(pre ++ [d]) ++ ds ++ rest, (((pre ++ [d]).length : Nat) : Int), .READ,
            buf ++ [d], S, E⟩ := by
        rw [show pre ++ (d :: ds) ++ rest = pre ++ d :: (ds ++ rest) by simp]
        simp [runFor, TMState.is_final, hs, hd, dirDelta]
      have h2 := runFor_trans h1 j'
      rw [show j' + 1 = 1 + j' by omega, h2,
        ih (fun c hc => hdig c (List.mem_cons_of_mem _ hc)) (pre ++ [d]) rest (buf ++ [d]) S E j'
          (by simpa using hj)]
      simp [List.take_succ_cons]
      refine ⟨by omega, ?_⟩
      rw [show 1 + j' = j' + 1 by omega, List.take_succ_cons]

/-- NEXT phase: skipping `j ≤ k` marked cells to the right changes
nothing but the head position. -/
theorem next_phase (rate : ℚ) :
    ∀ (k : Nat) (pre rest : List Char) (S : Sched) (E : List Int) (j : Nat), j ≤ k →
    runFor rate j ⟨pre ++ List.replicate k '*' ++ rest, (pre.length : Int), .NEXT, [], S, E⟩ =
      .ok ⟨pre ++ List.replicate k '*' ++ rest, ((pre.length + j : Nat) : Int), .NEXT, [], S, E⟩ := by
  intro k
  induction k with
  | zero =>
    intro pre rest S E j hj
    have hj0 : j = 0 := by omega
    subst hj0
    simp [runFor_zero]
  | succ k ih =>
    intro pre rest S E j hj
    cases j with
    | zero => simp [runFor_zero]
    | succ j' =>
      have ht : transitions .NEXT '*' = some ⟨.NEXT, '*', .R⟩ := by decide
      have hs := step_mid rate pre '*' (List.replicate k '*' ++ rest) .NEXT [] S E _ ht
      have h1 : runFor rate 1
            ⟨pre ++ List.replicate (k + 1) '*' ++ rest, (pre.length : Int), .NEXT, [], S, E⟩ =
          .ok ⟨(pre ++ ['*']) ++ List.replicate k '*' ++ rest,
            (((pre ++ ['*']).length : Nat) : Int), .NEXT, [], S, E⟩ := by
        rw [show pre ++ List.replicate (k + 1) '*' ++ rest
            = pre ++ '*' :: (List.replicate k '*' ++ rest) by simp [List.replicate_succ]]
        simp [runFor, TMState.is_final, hs, dirDelta]
      have h2 := runFor_trans h1 j'
      rw [show j' + 1 = 1 + j' by omega, h2, ih (pre ++ ['*']) rest S E j' (by simpa using hj)]
      simp [List.replicate_succ]
      omega

/-- MARK phase: with an empty buffer, walking left over `j ≤ |ds|` digit
cells overwrites each with `*` and moves the head left. -/
theorem mark_phase (rate : ℚ) :
    ∀ (ds : List Char), (∀ c ∈ ds, c.isDigit = true) →
    ∀ (pre rest : List Char) (S : Sched) (E : List Int) (j : Nat), j ≤ ds.length →
    runFor rate j ⟨pre ++ ds ++ rest, ((pre.length + ds.length : Nat) : Int) - 1, .MARK, [], S, E⟩ =
      .ok ⟨pre ++ ds.take (ds.length - j) ++ List.replicate j '*' ++ rest,
        ((pre.length + ds.length : Nat) : Int) - 1 - (j : Int), .MARK, [], S, E⟩ := by
  intro ds
  induction ds using List.reverseRecOn with
  | nil =>
    intro _ pre rest S E j hj
    have hj0 : j = 0 := by simpa using hj
    subst hj0
    simp [runFor_zero]
  | append_singleton ds d ih =>
    intro hdig pre rest S E j hj
    cases j with
    | zero =>
      have ht0 : (ds ++ [d]).take (ds.length + 1) = ds ++ [d] := by
        rw [show ds.length + 1 = (ds ++ [d]).length by simp, List.take_length]
      simp [runFor_zero, ht0]
    | succ j' =>
      have hd : d.isDigit = true := hdig d (by simp)
      have ht : transitions .MARK d = some ⟨.MARK, '*', .L⟩ := by simp [transitions, hd]
      have hcfg : (⟨pre ++ (ds ++ [d]) ++ rest,
            ((pre.length + (ds ++ [d]).length : Nat) : Int) - 1, .MARK, [], S, E⟩ : Config)
          = ⟨(pre ++ ds) ++ d :: rest, (((pre ++ ds).length : Nat) : Int), .MARK, [], S, E⟩ := by
        simp
        omega
      have hs := step_mid rate (pre ++ ds) d rest .MARK [] S E _ ht
      simp [dirDelta] at hs
      have h1 : runFor rate 1 ⟨(pre ++ ds) ++ d :: rest,
            (((pre ++ ds).length : Nat) : Int), .MARK, [], S, E⟩ =
          .ok ⟨pre ++ ds ++ ('*' :: rest),
            ((pre.length + ds.length : Nat) : Int) - 1, .MARK, [], S, E⟩ := by
        simp [runFor, TMState.is_final, hs]
        omega
      have hrun : runFor rate (j' + 1) ⟨(pre ++ ds) ++ d :: rest,
            (((pre ++ ds).length : Nat) : Int), .MARK, [], S, E⟩
          = runFor rate j' ⟨pre ++ ds ++ ('*' :: rest),
            ((pre.length + ds.length : Nat) : Int) - 1, .MARK, [], S, E⟩ := by
        rw [show j' + 1 = 1 + j' by omega]
        exact runFor_trans h1 j'
      rw [hcfg, hrun,
        ih (fun c hc => hdig c (by simp [hc])) pre ('*' :: rest) S E j' (by simp at hj; omega)]
      have htake : List.take (ds.length + 1 - (j' + 1)) (ds ++ [d]) = List.take (ds.length - j') ds := by
        rw [show ds.length + 1 - (j' + 1) = ds.length - j' by omega,
          List.take_append_of_le_length (by omega)]
      have hrep : List.replicate j' '*' ++ '*' :: rest = List.replicate (j' + 1) '*' ++ rest := by
        rw [List.replicate_succ']
        simp
      simp [htake, hrep]
      omega

theorem take_len_append_singleton {α : Type} (l : List α) (a : α) :
    (l ++ [a]).take (l.length + 1) = l ++ [a] := by
  rw [show l.length + 1 = (l ++ [a]).length by simp, List.take_length]

/-- Entry step of a number: `START` and `NEXT` both move right over a `#`
into `READ`. -/
theorem entry_step (rate : ℚ) (pre rest : List Char) (S : Sched) (E : List Int)
    (st : TMState) (hst : st = .START ∨ st = .NEXT) :
    runFor rate 1 ⟨pre ++ '#' :: rest, (pre.length : Int), st, [], S, E⟩ =
      .ok ⟨pre ++ '#' :: rest, ((pre.length + 1 : Nat) : Int), .READ, [], S, E⟩ := by
  have ht : transitions st '#' = some ⟨.READ, '#', .R⟩ := by
    rcases hst with rfl | rfl <;> decide
  have hf : st.is_final = false := by
    rcases hst with rfl | rfl <;> rfl
  have hne1 : (st = TMState.READ) = False := by
    rcases hst with rfl | rfl <;> simp
  have hne2 : (st = TMState.MARK) = False := by
    rcases hst with rfl | rfl <;> simp
  have hs := step_mid rate pre '#' rest st [] S E ⟨.READ, '#', .R⟩ ht
  simp [dirDelta, hne1, hne2] at hs
  simp [runFor, hf, hs]

/-- Boundary step out of `READ`: on `#` or `B` the head turns around into
`MARK`, leaving tape and buffer unchanged. -/
theorem read_to_mark_step (rate : ℚ) (pre rest : List Char) (x : Char)
    (hx : x = '#' ∨ x = 'B') (buf : List Char) (S : Sched) (E : List Int) :
    runFor rate 1 ⟨pre ++ x :: rest, (pre.length : Int), .READ, buf, S, E⟩ =
      .ok ⟨pre ++ x :: rest, (pre.length : Int) - 1, .MARK, buf, S, E⟩ := by
  have ht : transitions .READ x = some ⟨.MARK, x, .L⟩ := by
    rcases hx with rfl | rfl <;> decide
  have hxd : x.isDigit = false := by
    rcases hx with rfl | rfl <;> decide
  have hs := step_mid rate pre x rest .READ buf S E ⟨.MARK, x, .L⟩ ht
  simp [dirDelta, hxd] at hs
  simp [runFor, TMState.is_final, hs]
  omega

/-- The committing `MARK` step: with a non-empty buffer the number is
handed to the scheduler, the buffer cleared, the digit starred and the
head moved left. -/
theorem commit_step (rate : ℚ) (pre rest : List Char) (dL : Char)
    (hdL : dL.isDigit = true) (buf : List Char) (hbuf : buf ≠ [])
    (S : Sched) (hS1 : 0 < S.machine_times.length)
    (hS2 : S.machine_schedules.length = S.machine_times.length)
    (hrate : rate ≠ 0) (E : List Int) :
    runFor rate 1 ⟨pre ++ dL :: rest, (pre.length : Int), .MARK, buf, S, E⟩ =
      .ok ⟨pre ++ '*' :: rest, (pre.length : Int) - 1, .MARK, [],
        assignOrder rate S (digitsToNat buf : Int), E ++ [(digitsToNat buf : Int)]⟩ := by
  have ht : transitions .MARK dL = some ⟨.MARK, '*', .L⟩ := by simp [transitions, hdL]
  have hs := step_mid rate pre dL rest .MARK buf S E ⟨.MARK, '*', .L⟩ ht
  simp [dirDelta, hbuf,
    find_best_machine_ok S rate (digitsToNat buf : Int) hrate hS1 hS2] at hs
  simp [runFor, TMState.is_final, hs]
  omega

/-- Boundary step out of `MARK`: on the `#` the head turns around into
`NEXT`. -/
theorem mark_to_next_step (rate : ℚ) (pre rest : List Char) (S : Sched) (E : List Int) :
    runFor rate 1 ⟨pre ++ '#' :: rest, (pre.length : Int), .MARK, [], S, E⟩ =
      .ok ⟨pre ++ '#' :: rest, ((pre.length + 1 : Nat) : Int), .NEXT, [], S, E⟩ := by
  have hs := step_mid rate pre '#' rest .MARK [] S E ⟨.NEXT, '#', .R⟩ (by decide)
  simp [dirDelta] at hs
  simp [runFor, TMState.is_final, hs]

/-- The terminating step: `START` or `NEXT` on the blank moves right into
`FINAL`. -/
theorem final_step (rate : ℚ) (pre : List Char) (S : Sched) (E : List Int)
    (st : TMState) (hst : st = .START ∨ st = .NEXT) :
    runFor rate 1 ⟨pre ++ ['B'], (pre.length : Int), st, [], S, E⟩ =
      .ok ⟨pre ++ ['B'], ((pre.length + 1 : Nat) : Int), .FINAL, [], S, E⟩ := by
  have ht : transitions st 'B' = some ⟨.FINAL, 'B', .R⟩ := by
    rcases hst with rfl | rfl <;> decide
  have hf : st.is_final = false := by
    rcases hst with rfl | rfl <;> rfl
  have hne1 : (st = TMState.READ) = False := by
    rcases hst with rfl | rfl <;> simp
  have hne2 : (st = TMState.MARK) = False := by
    rcases hst with rfl | rfl <;> simp
  have hs := step_mid rate pre 'B' [] st [] S E ⟨.FINAL, 'B', .R⟩ ht
  simp [dirDelta, hne1, hne2] at hs
  simp [runFor, hf, hs]

/-- One full cycle of the automaton over a single encoded number: from a
`START`/`NEXT` state with the head on the number's `#`, the machine reads
the digits, commits the number to the scheduler, stars the digits and
parks in `NEXT` on the cell after the number, in exactly `3·|ds| + 3`
steps. -/
theorem cycle_exact (rate : ℚ) (ds : List Char) (hne : ds ≠ [])
    (hdig : ∀ c ∈ ds, c.isDigit = true)
    (pre : List Char) (x : Char) (R' : List Char) (hx : x = '#' ∨ x = 'B')
    (S : Sched) (hS1 : 0 < S.machine_times.length)
    (hS2 : S.machine_schedules.length = S.machine_times.length)
    (hrate : rate ≠ 0) (E : List Int)
    (st : TMState) (hst : st = .START ∨ st = .NEXT) :
    runFor rate (3 * ds.length + 3)
      ⟨pre ++ '#' :: ds ++ x :: R', (pre.length : Int), st, [], S, E⟩ =
      .ok ⟨pre ++ '#' :: List.replicate ds.length '*' ++ x :: R',
        ((pre.length + 1 + ds.length : Nat) : Int), .NEXT, [],
        assignOrder rate S (digitsToNat ds : Int), E ++ [(digitsToNat ds : Int)]⟩ := by
  obtain ⟨ds', dL, rfl⟩ : ∃ ds' dL, ds = ds' ++ [dL] := by
    rcases List.eq_nil_or_concat ds with h | ⟨L, b, h⟩
    · exact absurd h hne
    · exact ⟨L, b, by simpa [List.concat_eq_append] using h⟩
  have hdL : dL.isDigit = true := hdig dL (by simp)
  have hdig' : ∀ c ∈ ds', c.isDigit = true := fun c hc => hdig c (by simp [hc])
  rw [show 3 * (ds' ++ [dL]).length + 3
      = 1 + ((ds'.length + 1) + (1 + (1 + (ds'.length + (1 + (ds'.length + 1)))))) by
        simp
        omega]
  have hA : runFor rate 1
        ⟨pre ++ '#' :: (ds' ++ [dL]) ++ x :: R', (pre.length : Int), st, [], S, E⟩ =
      .ok ⟨(pre ++ ['#']) ++ (ds' ++ [dL]) ++ x :: R',
        (((pre ++ ['#']).length : Nat) : Int), .READ, [], S, E⟩ := by
    rw [show pre ++ '#' :: (ds' ++ [dL]) ++ x :: R'
        = pre ++ '#' :: ((ds' ++ [dL]) ++ x :: R') by simp,
      entry_step rate pre ((ds' ++ [dL]) ++ x :: R') S E st hst]
    simp
  have hB : runFor rate (ds'.length + 1)
        ⟨(pre ++ ['#']) ++ (ds' ++ [dL]) ++ x :: R',
          (((pre ++ ['#']).length : Nat) : Int), .READ, [], S, E⟩ =
      .ok ⟨((pre ++ ['#']) ++ (ds' ++ [dL])) ++ x :: R',
        ((((pre ++ ['#']) ++ (ds' ++ [dL])).length : Nat) : Int), .READ, ds' ++ [dL], S, E⟩ := by
    rw [read_phase rate (ds' ++ [dL]) hdig (pre ++ ['#']) (x :: R') [] S E (ds'.length + 1)
      (by simp)]
    simp [take_len_append_singleton]
    omega
  have hC : runFor rate 1
        ⟨((pre ++ ['#']) ++ (ds' ++ [dL])) ++ x :: R',
          ((((pre ++ ['#']) ++ (ds' ++ [dL])).length : Nat) : Int), .READ, ds' ++ [dL], S, E⟩ =
      .ok ⟨((pre ++ ['#']) ++ ds') ++ dL :: (x :: R'),
        ((((pre ++ ['#']) ++ ds').length : Nat) : Int), .MARK, ds' ++ [dL], S, E⟩ := by
    rw [read_to_mark_step rate ((pre ++ ['#']) ++ (ds' ++ [dL])) R' x hx (ds' ++ [dL]) S E]
    simp
    omega
  have hD : runFor rate 1
        ⟨((pre ++ ['#']) ++ ds') ++ dL :: (x :: R'),
          ((((pre ++ ['#']) ++ ds').length : Nat) : Int), .MARK, ds' ++ [dL], S, E⟩ =
      .ok ⟨(pre ++ ['#']) ++ ds' ++ ('*' :: x :: R'),
        (((pre ++ ['#']).length + ds'.length : Nat) : Int) - 1, .MARK, [],
        assignOrder rate S (digitsToNat (ds' ++ [dL]) : Int),
        E ++ [(digitsToNat (ds' ++ [dL]) : Int)]⟩ := by
    rw [commit_step rate ((pre ++ ['#']) ++ ds') (x :: R') dL hdL (ds' ++ [dL]) (by simp)
      S hS1 hS2 hrate E]
    simp
    omega
  have hE : runFor rate ds'.length
        ⟨(pre ++ ['#']) ++ ds' ++ ('*' :: x :: R'),
          (((pre ++ ['#']).length + ds'.length : Nat) : Int) - 1, .MARK, [],
          assignOrder rate S (digitsToNat (ds' ++ [dL]) : Int),
          E ++ [(digitsToNat (ds' ++ [dL]) : Int)]⟩ =
      .ok ⟨pre ++ '#' :: (List.replicate (ds'.length + 1) '*' ++ x :: R'),
        (pre.length : Int), .MARK, [],
        assignOrder rate S (digitsToNat (ds' ++ [dL]) : Int),
        E ++ [(digitsToNat (ds' ++ [dL]) : Int)]⟩ := by
    rw [mark_phase rate ds' hdig' (pre ++ ['#']) ('*' :: x :: R') _ _ ds'.length (le_refl _)]
    have hrep : List.replicate ds'.length '*' ++ '*' :: (x :: R')
        = List.replicate (ds'.length + 1) '*' ++ (x :: R') := by
      rw [List.replicate_succ']
      simp
    simp [hrep]
    omega
  have hF : runFor rate 1
        ⟨pre ++ '#' :: (List.replicate (ds'.length + 1) '*' ++ x :: R'),
          (pre.length : Int), .MARK, [],
          assignOrder rate S (digitsToNat (ds' ++ [dL]) : Int),
          E ++ [(digitsToNat (ds' ++ [dL]) : Int)]⟩ =
      .ok ⟨(pre ++ ['#']) ++ List.replicate (ds'.length + 1) '*' ++ (x :: R'),
        (((pre ++ ['#']).length : Nat) : Int), .NEXT, [],
        assignOrder rate S (digitsToNat (ds' ++ [dL]) : Int),
        E ++ [(digitsToNat (ds' ++ [dL]) : Int)]⟩ := by
    rw [mark_to_next_step rate pre (List.replicate (ds'.length + 1) '*' ++ x :: R') _ _]
    simp
  have hG : runFor rate (ds'.length + 1)
        ⟨(pre ++ ['#']) ++ List.replicate (ds'.length + 1) '*' ++ (x :: R'),
          (((pre ++ ['#']).length : Nat) : Int), .NEXT, [],
          assignOrder rate S (digitsToNat (ds' ++ [dL]) : Int),
          E ++ [(digitsToNat (ds' ++ [dL]) : Int)]⟩ =
      .ok ⟨(pre ++ ['#']) ++ List.replicate (ds'.length + 1) '*' ++ (x :: R'),
        (((pre ++ ['#']).length + (ds'.length + 1) : Nat) : Int), .NEXT, [],
        assignOrder rate S (digitsToNat (ds' ++ [dL]) : Int),
        E ++ [(digitsToNat (ds' ++ [dL]) : Int)]⟩ :=
    next_phase rate (ds'.length + 1) (pre ++ ['#']) (x :: R') _ _ (ds'.length + 1) (le_refl _)
  rw [runFor_trans hA, runFor_trans hB, runFor_trans hC, runFor_trans hD, runFor_trans hE,
    runFor_trans hF, hG]
  simp

theorem digitsToNat_intStr {o : Int} (h : 0 ≤ o) : ((digitsToNat (intStr o) : Nat) : Int) = o := by
  rw [intStr, if_neg (not_lt.mpr h), digitsToNat_natDigits]
  exact Int.toNat_of_nonneg h

theorem intStr_ne_nil {o : Int} (h : 0 ≤ o) : intStr o ≠ [] := by
  rw [intStr, if_neg (not_lt.mpr h)]
  exact natDigits_ne_nil _

theorem intStr_isDigit {o : Int} (h : 0 ≤ o) : ∀ c ∈ intStr o, c.isDigit = true := by
  rw [intStr, if_neg (not_lt.mpr h)]
  exact natDigits_isDigit _

/-- Processing the whole encoded region of the tape: the run consumes
`stepsFor ords` iterations, stars every digit, commits every order to the
scheduler in order and parks on the cell after the region. -/
theorem loop_exact (rate : ℚ) (hrate : rate ≠ 0) :
    ∀ (ords : List Int), (∀ o ∈ ords, 0 ≤ o) →
    ∀ (pre : List Char) (x : Char) (R' : List Char), x = '#' ∨ x = 'B' →
    ∀ (S : Sched), 0 < S.machine_times.length →
      S.machine_schedules.length = S.machine_times.length →
    ∀ (E : List Int) (st : TMState), st = .START ∨ st = .NEXT →
    runFor rate (stepsFor ords)
      ⟨pre ++ encodeOrders ords ++ x :: R', (pre.length : Int), st, [], S, E⟩ =
      .ok ⟨pre ++ markedOrders ords ++ x :: R',
        ((pre.length + (encodeOrders ords).length : Nat) : Int),
        (if ords = [] then st else .NEXT), [], foldAssign rate S ords, E ++ ords⟩ := by
  intro ords
  induction ords with
  | nil =>
    intro _ pre x R' hx S hS1 hS2 E st hst
    simp [stepsFor, encodeOrders, markedOrders, foldAssign, runFor_zero]
  | cons o t ih =>
    intro hpos pre x R' hx S hS1 hS2 E st hst
    have ho : (0 : Int) ≤ o := hpos o (List.mem_cons_self _ _)
    have hval : ((digitsToNat (intStr o) : Nat) : Int) = o := digitsToNat_intStr ho
    obtain ⟨x₂, R₂, hxR, hx₂⟩ :
        ∃ x₂ R₂, encodeOrders t ++ x :: R' = x₂ :: R₂ ∧ (x₂ = '#' ∨ x₂ = 'B') := by
      cases t with
      | nil => exact ⟨x, R', by simp [encodeOrders], hx⟩
      | cons o₂ t' =>
        exact ⟨'#', (intStr o₂ ++ encodeOrders t') ++ x :: R', by simp [encodeOrders], Or.inl rfl⟩
    rw [show stepsFor (o :: t) = (3 * (intStr o).length + 3) + stepsFor t by simp [stepsFor],
      show pre ++ encodeOrders (o :: t) ++ x :: R'
        = pre ++ '#' :: intStr o ++ x₂ :: R₂ by
          rw [← hxR]; simp [encodeOrders]]
    have hcyc := cycle_exact rate (intStr o) (intStr_ne_nil ho) (intStr_isDigit ho)
      pre x₂ R₂ hx₂ S hS1 hS2 hrate E st hst
    rw [hval] at hcyc
    have hcyc' : runFor rate (3 * (intStr o).length + 3)
          ⟨pre ++ '#' :: intStr o ++ x₂ :: R₂, (pre.length : Int), st, [], S, E⟩ =
        .ok ⟨(pre ++ '#' :: List.replicate (intStr o).length '*')
            ++ encodeOrders t ++ x :: R',
          (((pre ++ '#' :: List.replicate (intStr o).length '*').length : Nat) : Int),
          .NEXT, [], assignOrder rate S o, E ++ [o]⟩ := by
      rw [hcyc, ← hxR]
      simp
      omega
    have hS1' : 0 < (assignOrder rate S o).machine_times.length := by
      rw [assignOrder_times_length]; exact hS1
    have hS2' : (assignOrder rate S o).machine_schedules.length
        = (assignOrder rate S o).machine_times.length := by
      rw [assignOrder_times_length, assignOrder_schedules_length, hS2]
    rw [runFor_trans hcyc',
      ih (fun c hc => hpos c (List.mem_cons_of_mem _ hc))
        (pre ++ '#' :: List.replicate (intStr o).length '*') x R' hx
        (assignOrder rate S o) hS1' hS2' (E ++ [o]) .NEXT (Or.inr rfl)]
    simp [markedOrders, encodeOrders, foldAssign]
    omega

theorem markedOrders_length (orders : List Int) :
    (markedOrders orders).length = (encodeOrders orders).length := by
  induction orders with
  | nil => rfl
  | cons o t ih =>
    rw [show markedOrders (o :: t)
        = ('#' :: List.replicate (intStr o).length '*') ++ markedOrders t by simp [markedOrders],
      show encodeOrders (o :: t) = ('#' :: intStr o) ++ encodeOrders t by simp [encodeOrders],
      List.length_append, List.length_append, ih]
    simp

/-- The complete run of `process_orders` on a fresh machine with a valid
configuration: after exactly `totalFuel orders` iterations the state is
`FINAL`, every digit is starred, the head is one past the end of the
tape, and all orders have been committed to the scheduler in order. -/
theorem run_exact (num_machines : Int) (rate : ℚ) (orders : List Int)
    (hnm : 0 < num_machines) (hrate : rate ≠ 0) (hpos : ∀ o ∈ orders, 0 ≤ o) :
    runFor rate (totalFuel orders) (initConfig num_machines orders) =
      .ok ⟨markedTape orders, ((markedTape orders).length : Int), .FINAL, [],
        foldAssign rate (initSched num_machines) orders, orders⟩ := by
  have hS1 : 0 < (initSched num_machines).machine_times.length := by
    simp [initSched]
    omega
  have hS2 : (initSched num_machines).machine_schedules.length
      = (initSched num_machines).machine_times.length := by
    simp [initSched]
  have hloop := loop_exact rate hrate orders hpos [] 'B' [] (Or.inr rfl)
    (initSched num_machines) hS1 hS2 [] .START (Or.inl rfl)
  have hinit : initConfig num_machines orders =
      ⟨([] : List Char) ++ encodeOrders orders ++ 'B' :: [],
        ((([] : List Char).length : Nat) : Int), .START, [], initSched num_machines, []⟩ := by
    simp [initConfig, prepare_tape, encodeOrders]
  have hcfg : (⟨([] : List Char) ++ markedOrders orders ++ 'B' :: [],
        ((([] : List Char).length + (encodeOrders orders).length : Nat) : Int),
        (if orders = [] then TMState.START else TMState.NEXT), [],
        foldAssign rate (initSched num_machines) orders, ([] : List Int) ++ orders⟩ : Config) =
      ⟨markedOrders orders ++ ['B'], (((markedOrders orders).length : Nat) : Int),
        (if orders = [] then TMState.START else TMState.NEXT), [],
        foldAssign rate (initSched num_machines) orders, orders⟩ := by
    simp [markedOrders_length]
  rw [show totalFuel orders = stepsFor orders + 1 from rfl, hinit, runFor_trans hloop 1,
    hcfg, final_step rate (markedOrders orders) _ _ _
      (by by_cases h : orders = [] <;> simp [h])]
  simp [markedTape, markedOrders, markedOrders_length, encodeOrders]

theorem getD_set_self {α : Type} (l : List α) : ∀ (i : Nat) (x d : α), i < l.length →
    (l.set i x).getD i d = x := by
  induction l with
  | nil => intro i x d h; simp at h
  | cons a t ih =>
    intro i x d h
    cases i with
    | zero => rfl
    | succ j => simpa using ih j x d (by simpa using h)

theorem schedule_total_sum (s : Sched)
    (hlen : s.machine_schedules.length = s.machine_times.length) :
    ((generate_schedule s).map Prod.snd).sum = s.machine_times.sum := by
  unfold generate_schedule
  rw [List.map_map, hlen]
  have hcomp : (Prod.snd ∘ fun i => (s.machine_schedules.getD i [], s.machine_times.getD i 0))
      = fun i => s.machine_times.getD i 0 := rfl
  rw [hcomp, map_getD_range]

/-- C1.  On a fresh, validly configured machine, `process_orders` on any
list of positive orders reaches `FINAL` and the extraction hook hands the
scheduler exactly one token per order, the token sequence being equal to
the input sequence (hence also equal as multisets). -/
theorem tokens_extracted (num_machines : Int) (rate : ℚ) (orders : List Int)
    (hnm : 0 < num_machines) (hrate : 0 < rate) (hpos : ∀ o ∈ orders, 0 < o) :
    ∃ c, runFor rate (totalFuel orders) (initConfig num_machines orders) = .ok c ∧
      c.current_state = .FINAL ∧ c.emitted = orders ∧ c.emitted.length = orders.length :=
  ⟨_, run_exact num_machines rate orders hnm (ne_of_gt hrate)
    (fun o ho => le_of_lt (hpos o ho)), rfl, rfl, rfl⟩

/-- Witness for C1 at `num_machines = 2`, `rate = 10`,
`orders = [5, 12]`. -/
theorem tokens_extracted_witness :
    (0 : Int) < 2 ∧ (0 : ℚ) < 10 ∧ (∀ o ∈ ([5, 12] : List Int), 0 < o) ∧
    ∃ c, runFor 10 (totalFuel [5, 12]) (initConfig 2 [5, 12]) = .ok c ∧
      c.current_state = .FINAL ∧ c.emitted = [5, 12] ∧
      c.emitted.length = ([5, 12] : List Int).length :=
  ⟨by norm_num, by norm_num, by decide,
    tokens_extracted 2 10 [5, 12] (by norm_num) (by norm_num) (by decide)⟩

/-- C3.  Work conservation: after a full run on a fresh, validly
configured machine, the sum of `total_time` over the generated schedule
equals the sum of the order sizes divided by the production rate
(arithmetic in `ℚ`). -/
theorem total_time_conserved (num_machines : Int) (rate : ℚ) (orders : List Int)
    (hnm : 0 < num_machines) (hrate : 0 < rate) (hpos : ∀ o ∈ orders, 0 < o) :
    ∃ c, runFor rate (totalFuel orders) (initConfig num_machines orders) = .ok c ∧
      c.current_state = .FINAL ∧
      ((generate_schedule c.sched).map Prod.snd).sum
        = (orders.map fun o : Int => (o : ℚ)).sum / rate := by
  refine ⟨_, run_exact num_machines rate orders hnm (ne_of_gt hrate)
    (fun o ho => le_of_lt (hpos o ho)), rfl, ?_⟩
  have hS1 : 0 < (initSched num_machines).machine_times.length := by
    simp [initSched]
    omega
  have hlen : (foldAssign rate (initSched num_machines) orders).machine_schedules.length
      = (foldAssign rate (initSched num_machines) orders).machine_times.length := by
    rw [foldAssign_times_length, foldAssign_schedules_length]
    simp [initSched]
  rw [schedule_total_sum _ hlen, foldAssign_times_sum rate orders _ hS1]
  simp [initSched]

/-- Witness for C3 at `num_machines = 2`, `rate = 10`,
`orders = [5, 12]`. -/
theorem total_time_conserved_witness :
    (0 : Int) < 2 ∧ (0 : ℚ) < 10 ∧ (∀ o ∈ ([5, 12] : List Int), 0 < o) ∧
    ∃ c, runFor 10 (totalFuel [5, 12]) (initConfig 2 [5, 12]) = .ok c ∧
      c.current_state = .FINAL ∧
      ((generate_schedule c.sched).map Prod.snd).sum
        = (([5, 12] : List Int).map fun o : Int => (o : ℚ)).sum / 10 :=
  ⟨by norm_num, by norm_num, by decide,
    total_time_conserved 2 10 [5, 12] (by norm_num) (by norm_num) (by decide)⟩

/-- C4.  Termination: on a fresh, validly configured machine the
`process_orders` loop on any list of positive orders reaches the `FINAL`
state after finitely many iterations, and once final the run is over: any
larger iteration bound returns the same final configuration (the loop
runs only while the state is not final). -/
theorem loop_terminates (num_machines : Int) (rate : ℚ) (orders : List Int)
    (hnm : 0 < num_machines) (hrate : 0 < rate) (hpos : ∀ o ∈ orders, 0 < o) :
    ∃ n c, runFor rate n (initConfig num_machines orders) = .ok c ∧
      c.current_state.is_final = true ∧
      ∀ m, n ≤ m → runFor rate m (initConfig num_machines orders) = .ok c := by
  have hrun := run_exact num_machines rate orders hnm (ne_of_gt hrate)
    (fun o ho => le_of_lt (hpos o ho))
  refine ⟨totalFuel orders, _, hrun, rfl, ?_⟩
  intro m hm
  have h2 := runFor_trans hrun (m - totalFuel orders)
  rw [show totalFuel orders + (m - totalFuel orders) = m by omega] at h2
  rw [h2]
  exact runFor_final
    (c := ⟨markedTape orders, ((markedTape orders).length : Int), .FINAL, [],
      foldAssign rate (initSched num_machines) orders, orders⟩) rfl rate _

/-- Witness for C4 at `num_machines = 2`, `rate = 10`,
`orders = [5, 12]`. -/
theorem loop_terminates_witness :
    (0 : Int) < 2 ∧ (0 : ℚ) < 10 ∧ (∀ o ∈ ([5, 12] : List Int), 0 < o) ∧
    ∃ n c, runFor 10 n (initConfig 2 [5, 12]) = .ok c ∧
      c.current_state.is_final = true ∧
      ∀ m, n ≤ m → runFor 10 m (initConfig 2 [5, 12]) = .ok c :=
  ⟨by norm_num, by norm_num, by decide,
    loop_terminates 2 10 [5, 12] (by norm_num) (by norm_num) (by decide)⟩

/-- C8.  An empty order list (tape a single blank) terminates in one step
and yields a schedule in which every machine has an empty order list and
total time `0`, for any machine count and rate. -/
theorem empty_orders_schedule (num_machines : Int) (rate : ℚ) :
    ∃ c, runFor rate (totalFuel []) (initConfig num_machines []) = .ok c ∧
      c.current_state = .FINAL ∧
      ∀ p ∈ generate_schedule c.sched, p.1 = [] ∧ p.2 = 0 := by
  have hfin := final_step rate [] (initSched num_machines) [] .START (Or.inl rfl)
  have hinit : initConfig num_machines [] =
      ⟨([] : List Char) ++ ['B'], ((([] : List Char).length : Nat) : Int), .START, [],
        initSched num_machines, []⟩ := by
    simp [initConfig, prepare_tape]
  refine ⟨⟨([] : List Char) ++ ['B'], ((([] : List Char).length + 1 : Nat) : Int), .FINAL, [],
    initSched num_machines, []⟩, ?_, rfl, ?_⟩
  · rw [show totalFuel [] = 1 from rfl, hinit, hfin]
  · intro p hp
    simp only [generate_schedule, initSched, List.mem_map, List.mem_range] at hp
    obtain ⟨i, hi, rfl⟩ := hp
    rw [List.length_replicate] at hi
    exact ⟨getD_replicate_lt [] [] _ i hi, getD_replicate_lt 0 0 _ i hi⟩

theorem markedOrders_mem (orders : List Int) :
    ∀ ch ∈ markedOrders orders, ch = '#' ∨ ch = '*' := by
  intro ch hch
  induction orders with
  | nil => simp [markedOrders] at hch
  | cons o t ih =>
    rw [show markedOrders (o :: t)
        = ('#' :: List.replicate (intStr o).length '*') ++ markedOrders t by
          simp [markedOrders]] at hch
    rcases List.mem_append.mp hch with h2 | h2
    · rcases List.mem_cons.mp h2 with rfl | h3
      · exact Or.inl rfl
      · exact Or.inr (List.eq_of_mem_replicate h3)
    · exact ih h2

/-- C10.  After a successful run every digit cell has been overwritten
with `*`: the final tape is the marked tape, has the same length as the
prepared tape, and consists only of `#`, `*` and `B` cells — in
particular it contains no digits. -/
theorem final_tape_marked (num_machines : Int) (rate : ℚ) (orders : List Int)
    (hnm : 0 < num_machines) (hrate : 0 < rate) (hpos : ∀ o ∈ orders, 0 < o) :
    ∃ c, runFor rate (totalFuel orders) (initConfig num_machines orders) = .ok c ∧
      c.current_state = .FINAL ∧
      c.tape = markedTape orders ∧
      c.tape.length = (prepare_tape orders).length ∧
      ∀ ch ∈ c.tape, (ch = '#' ∨ ch = '*' ∨ ch = 'B') ∧ ch.isDigit = false := by
  refine ⟨_, run_exact num_machines rate orders hnm (ne_of_gt hrate)
    (fun o ho => le_of_lt (hpos o ho)), rfl, rfl, ?_, ?_⟩
  · rw [show markedTape orders = markedOrders orders ++ ['B'] from rfl,
      show prepare_tape orders = encodeOrders orders ++ ['B'] from rfl,
      List.length_append, List.length_append, markedOrders_length]
  · intro ch hch
    rw [show markedTape orders = markedOrders orders ++ ['B'] from rfl] at hch
    have hch3 : ch = '#' ∨ ch = '*' ∨ ch = 'B' := by
      rcases List.mem_append.mp hch with h | h
      · rcases markedOrders_mem orders ch h with h1 | h1
        · exact Or.inl h1
        · exact Or.inr (Or.inl h1)
      · exact Or.inr (Or.inr (List.mem_singleton.mp h))
    exact ⟨hch3, by rcases hch3 with rfl | rfl | rfl <;> decide⟩

/-- Witness for C10 at `num_machines = 2`, `rate = 10`,
`orders = [5, 12]`. -/
theorem final_tape_marked_witness :
    (0 : Int) < 2 ∧ (0 : ℚ) < 10 ∧ (∀ o ∈ ([5, 12] : List Int), 0 < o) ∧
    ∃ c, runFor 10 (totalFuel [5, 12]) (initConfig 2 [5, 12]) = .ok c ∧
      c.current_state = .FINAL ∧
      c.tape = markedTape [5, 12] ∧
      c.tape.length = (prepare_tape [5, 12]).length ∧
      ∀ ch ∈ c.tape, (ch = '#' ∨ ch = '*' ∨ ch = 'B') ∧ ch.isDigit = false :=
  ⟨by norm_num, by norm_num, by decide,
    final_tape_marked 2 10 [5, 12] (by norm_num) (by norm_num) (by decide)⟩

/-- C2.  A single call to `_find_best_machine` on a valid scheduler
state: the chosen index minimizes `machine_times` with ties to the lowest
index (every earlier index is strictly larger), the appended log pair is
`(order_size, t)` with `t` the chosen machine's time before the update,
and that time grows by exactly `order_size / production_rate`. -/
theorem find_best_machine_greedy (s : Sched) (rate : ℚ) (o : Int)
    (hrate : 0 < rate) (hne : 0 < s.machine_times.length)
    (hlen : s.machine_schedules.length = s.machine_times.length) :
    ∃ best s', find_best_machine s rate o = .ok (best, s') ∧
      best < s.machine_times.length ∧
      (∀ i, i < s.machine_times.length →
        s.machine_times.getD best 0 ≤ s.machine_times.getD i 0) ∧
      (∀ j, j < best → s.machine_times.getD best 0 < s.machine_times.getD j 0) ∧
      s'.machine_schedules.getD best []
        = s.machine_schedules.getD best [] ++ [(o, s.machine_times.getD best 0)] ∧
      s'.machine_times.getD best 0 = s.machine_times.getD best 0 + (o : ℚ) / rate := by
  obtain ⟨hb, hmin_eq, hmin_le, hstrict⟩ := bestIndex_spec s hne
  refine ⟨bestIndex s, assignOrder rate s o,
    find_best_machine_ok s rate o (ne_of_gt hrate) hne hlen, hb, ?_, ?_, ?_, ?_⟩
  · intro i hi
    rw [← hmin_eq]
    exact hmin_le i hi
  · intro j hj
    rw [← hmin_eq]
    exact hstrict j hj
  · rw [show (assignOrder rate s o).machine_schedules
        = s.machine_schedules.set (bestIndex s)
          (s.machine_schedules.getD (bestIndex s) [] ++ [(o, bestMin s)]) from rfl,
      getD_set_self _ _ _ _ (hlen ▸ hb), hmin_eq]
  · rw [show (assignOrder rate s o).machine_times
        = s.machine_times.set (bestIndex s)
          (s.machine_times.getD (bestIndex s) 0 + (o : ℚ) / rate) from rfl,
      getD_set_self _ _ _ _ hb]

/-- Witness for C2: three machines with times `[3, 1, 1]`; the tie
between machines 1 and 2 must go to index 1. -/
theorem find_best_machine_greedy_witness :
    (0 : ℚ) < 2 ∧ 0 < (Sched.mk [3, 1, 1] [[], [], []]).machine_times.length ∧
    (Sched.mk [3, 1, 1] [[], [], []]).machine_schedules.length
      = (Sched.mk [3, 1, 1] [[], [], []]).machine_times.length ∧
    ∃ best s', find_best_machine (Sched.mk [3, 1, 1] [[], [], []]) 2 4 = .ok (best, s') ∧
      best < (Sched.mk [3, 1, 1] [[], [], []]).machine_times.length ∧
      (∀ i, i < (Sched.mk [3, 1, 1] [[], [], []]).machine_times.length →
        (Sched.mk [3, 1, 1] [[], [], []]).machine_times.getD best 0
          ≤ (Sched.mk [3, 1, 1] [[], [], []]).machine_times.getD i 0) ∧
      (∀ j, j < best → (Sched.mk [3, 1, 1] [[], [], []]).machine_times.getD best 0
        < (Sched.mk [3, 1, 1] [[], [], []]).machine_times.getD j 0) ∧
      s'.machine_schedules.getD best []
        = (Sched.mk [3, 1, 1] [[], [], []]).machine_schedules.getD best []
          ++ [(4, (Sched.mk [3, 1, 1] [[], [], []]).machine_times.getD best 0)] ∧
      s'.machine_times.getD best 0
        = (Sched.mk [3, 1, 1] [[], [], []]).machine_times.getD best 0 + (4 : ℚ) / 2 :=
  ⟨by norm_num, by decide, rfl,
    find_best_machine_greedy (Sched.mk [3, 1, 1] [[], [], []]) 2 4
      (by norm_num) (by decide) rfl⟩

/-- C6.  When the automaton reaches a configuration whose state and read
symbol have no transition entry, the run fails from that point on with
the no-valid-transition error naming that state and symbol (the message
built by `noTransitionMessage`), and no final configuration is ever
produced — no schedule can be returned. -/
theorem no_transition_aborts (rate : ℚ) (c0 : Config) (n : Nat) (c : Config) (k : Nat)
    (hrun : runFor rate n c0 = .ok c)
    (hnf : c.current_state.is_final = false)
    (hidx : pyIndex c.tape.length c.head_position = some k)
    (hmiss : transitions c.current_state (c.tape.getD k ' ') = none) :
    (∀ m, n < m → runFor rate m c0 =
      .error (noTransitionMessage c.current_state (c.tape.getD k ' '))) ∧
    (∀ m c', runFor rate m c0 = .ok c' → c'.current_state.is_final = false) := by
  have hstep : step rate c =
      .error (noTransitionMessage c.current_state (c.tape.getD k ' ')) := by
    unfold step
    rw [hidx]
    simp only [hmiss]
  have herr : ∀ m, n < m → runFor rate m c0 =
      .error (noTransitionMessage c.current_state (c.tape.getD k ' ')) := by
    intro m hm
    have h1 : runFor rate (n + 1) c0 =
        .error (noTransitionMessage c.current_state (c.tape.getD k ' ')) := by
      rw [runFor_trans hrun 1, runFor_one hnf, hstep]
    have h2 := runFor_error_absorb h1 (m - (n + 1))
    rw [show n + 1 + (m - (n + 1)) = m by omega] at h2
    exact h2
  refine ⟨herr, ?_⟩
  intro m c' hok
  cases hfin : c'.current_state.is_final with
  | false => rfl
  | true =>
    exfalso
    rcases le_or_lt m n with hmn | hnm
    · have h2 := runFor_trans hok (n - m)
      rw [show m + (n - m) = n by omega, hrun, runFor_final hfin] at h2
      injection h2 with hcc
      rw [← hcc] at hfin
      rw [hnf] at hfin
      exact Bool.false_ne_true hfin
    · have h3 := herr m hnm
      rw [hok] at h3
      exact Except.noConfusion h3

/-- Witness for C6: one step into the run on `orders = [-3]` the machine
is in `READ` looking at the `-` cell, which has no transition. -/
theorem no_transition_aborts_witness :
    (runFor 10 1 (initConfig 1 [-3])
      = .ok ⟨['#', '-', '3', 'B'], 1, .READ, [], initSched 1, []⟩) ∧
    ((∀ m, 1 < m → runFor 10 m (initConfig 1 [-3])
        = .error (noTransitionMessage .READ '-')) ∧
     (∀ m c', runFor 10 m (initConfig 1 [-3]) = .ok c' →
        c'.current_state.is_final = false)) :=
  ⟨rfl, no_transition_aborts 10 (initConfig 1 [-3]) 1
    ⟨['#', '-', '3', 'B'], 1, .READ, [], initSched 1, []⟩ 1 rfl rfl (by decide) (by decide)⟩

/-- C7, counterexample: constructing with non-positive `num_machines`
and `production_rate` is *not* rejected — the constructor returns
normally, so no `InvalidConfigurationError` (or any error) is raised at
construction time. -/
theorem init_no_rejection_counterexample :
    STM.init 0 0 = .ok (0, 0, initSched 0) ∧ ∀ e, STM.init 0 0 ≠ .error e :=
  ⟨rfl, fun _ h => Except.noConfusion h⟩

/-- C7, amended: `__init__` performs no validation at all: every
`num_machines` and `production_rate` (including non-positive ones) is
accepted, the parameters are stored as given, and `[0] * num_machines`
yields `max num_machines 0` machine slots. -/
theorem init_accepts_any_configuration (num_machines : Int) (production_rate : ℚ) :
    STM.init num_machines production_rate
      = .ok (num_machines, production_rate, initSched num_machines) ∧
    (initSched num_machines).machine_times.length = num_machines.toNat ∧
    (initSched num_machines).machine_schedules.length = num_machines.toNat :=
  ⟨rfl, by simp [initSched], by simp [initSched]⟩

theorem exists_first_neg : ∀ (l : List Int), (∃ o ∈ l, o < 0) →
    ∃ pos oneg rest, l = pos ++ oneg :: rest ∧ (∀ o ∈ pos, 0 ≤ o) ∧ oneg < 0 := by
  intro l
  induction l with
  | nil => intro h; simp at h
  | cons a t ih =>
    intro h
    by_cases ha : a < 0
    · exact ⟨[], a, t, rfl, by simp, ha⟩
    · have ht : ∃ o ∈ t, o < 0 := by
        rcases h with ⟨o, ho, hneg⟩
        rcases List.mem_cons.mp ho with rfl | hmem
        · exact absurd hneg ha
        · exact ⟨o, hmem, hneg⟩
      obtain ⟨pos, oneg, rest, heq, hpos, hneg'⟩ := ih ht
      refine ⟨a :: pos, oneg, rest, by simp [heq], ?_, hneg'⟩
      intro o ho
      rcases List.mem_cons.mp ho with rfl | h2
      · exact le_of_not_lt ha
      · exact hpos o h2

/-- C9.  Any order list containing a negative value: the `-` sign is
written on the tape by `_prepare_tape`, no state has a transition for it,
and the run fails with the no-valid-transition error for state `READ`
and symbol `-`; no final configuration (hence no schedule) is ever
produced. -/
theorem negative_order_fails (num_machines : Int) (rate : ℚ) (orders : List Int)
    (hnm : 0 < num_machines) (hrate : 0 < rate)
    (hneg : ∃ o ∈ orders, o < 0) :
    (∃ N, ∀ m, N < m → runFor rate m (initConfig num_machines orders)
      = .error (noTransitionMessage .READ '-')) ∧
    (∀ m c', runFor rate m (initConfig num_machines orders) = .ok c' →
      c'.current_state.is_final = false) := by
  obtain ⟨pos, oneg, rest, horders, hposs, honeg⟩ := exists_first_neg orders hneg
  subst horders
  have hS1 : 0 < (initSched num_machines).machine_times.length := by
    simp [initSched]
    omega
  have hS2 : (initSched num_machines).machine_schedules.length
      = (initSched num_machines).machine_times.length := by
    simp [initSched]
  have hneg_str : intStr oneg = '-' :: natDigits oneg.natAbs := by
    rw [intStr, if_pos honeg]
  have hloop := loop_exact rate (ne_of_gt hrate) pos hposs [] '#'
    (intStr oneg ++ (encodeOrders rest ++ ['B'])) (Or.inl rfl)
    (initSched num_machines) hS1 hS2 [] .START (Or.inl rfl)
  have hinit : initConfig num_machines (pos ++ oneg :: rest) =
      ⟨([] : List Char) ++ encodeOrders pos
          ++ '#' :: (intStr oneg ++ (encodeOrders rest ++ ['B'])),
        ((([] : List Char).length : Nat) : Int), .START, [], initSched num_machines, []⟩ := by
    simp [initConfig, prepare_tape, encodeOrders]
  have hst1 : (if pos = ([] : List Int) then TMState.START else TMState.NEXT) = .START ∨
      (if pos = ([] : List Int) then TMState.START else TMState.NEXT) = .NEXT := by
    by_cases h : pos = [] <;> simp [h]
  have hentry := entry_step rate (markedOrders pos)
    (intStr oneg ++ (encodeOrders rest ++ ['B']))
    (foldAssign rate (initSched num_machines) pos) (([] : List Int) ++ pos) _ hst1
  have hcfg : (⟨([] : List Char) ++ markedOrders pos
        ++ '#' :: (intStr oneg ++ (encodeOrders rest ++ ['B'])),
      ((([] : List Char).length + (encodeOrders pos).length : Nat) : Int),
      (if pos = ([] : List Int) then TMState.START else TMState.NEXT), [],
      foldAssign rate (initSched num_machines) pos, ([] : List Int) ++ pos⟩ : Config)
      = ⟨markedOrders pos ++ '#' :: (intStr oneg ++ (encodeOrders rest ++ ['B'])),
        (((markedOrders pos).length : Nat) : Int),
        (if pos = ([] : List Int) then TMState.START else TMState.NEXT), [],
        foldAssign rate (initSched num_machines) pos, ([] : List Int) ++ pos⟩ := by
    simp [markedOrders_length]
  have hrun : runFor rate (stepsFor pos + 1) (initConfig num_machines (pos ++ oneg :: rest))
      = .ok ⟨markedOrders pos ++ '#' :: (intStr oneg ++ (encodeOrders rest ++ ['B'])),
        (((markedOrders pos).length + 1 : Nat) : Int), .READ, [],
        foldAssign rate (initSched num_machines) pos, ([] : List Int) ++ pos⟩ := by
    rw [hinit, runFor_trans hloop 1, hcfg, hentry]
  have hlen : (markedOrders pos).length + 1
      < (markedOrders pos ++ '#' :: (intStr oneg ++ (encodeOrders rest ++ ['B']))).length := by
    simp [hneg_str]
  have hk : pyIndex (markedOrders pos ++ '#'
        :: (intStr oneg ++ (encodeOrders rest ++ ['B']))).length
      (((markedOrders pos).length + 1 : Nat) : Int) = some ((markedOrders pos).length + 1) :=
    pyIndex_coe _ _ hlen
  have hsym : (markedOrders pos ++ '#' :: (intStr oneg ++ (encodeOrders rest ++ ['B']))).getD
      ((markedOrders pos).length + 1) ' ' = '-' := by
    rw [show markedOrders pos ++ '#' :: (intStr oneg ++ (encodeOrders rest ++ ['B']))
        = (markedOrders pos ++ ['#'])
          ++ '-' :: (natDigits oneg.natAbs ++ (encodeOrders rest ++ ['B'])) by
          simp [hneg_str],
      show (markedOrders pos).length + 1 = (markedOrders pos ++ ['#']).length by simp]
    exact getD_append_length _ _ _ _
  obtain ⟨herr, hnofin⟩ := no_transition_aborts rate
    (initConfig num_machines (pos ++ oneg :: rest)) (stepsFor pos + 1) _
    ((markedOrders pos).length + 1) hrun rfl hk
    (by rw [hsym]; rfl)
  refine ⟨⟨stepsFor pos + 1, ?_⟩, hnofin⟩
  intro m hm
  have h3 := herr m hm
  rwa [hsym] at h3

/-- Witness for C9 at `num_machines = 1`, `rate = 10`,
`orders = [2, -7]`. -/
theorem negative_order_fails_witness :
    (0 : Int) < 1 ∧ (0 : ℚ) < 10 ∧ (∃ o ∈ ([2, -7] : List Int), o < 0) ∧
    ((∃ N, ∀ m, N < m → runFor 10 m (initConfig 1 [2, -7])
      = .error (noTransitionMessage .READ '-')) ∧
    (∀ m c', runFor 10 m (initConfig 1 [2, -7]) = .ok c' →
      c'.current_state.is_final = false)) :=
  ⟨by norm_num, by norm_num, ⟨-7, by decide, by decide⟩,
    negative_order_fails 1 10 [2, -7] (by norm_num) (by norm_num)
      ⟨-7, by decide, by decide⟩⟩

/-- Every configuration visited during one cycle over a single encoded
number keeps the head inside the tape, stays non-final and preserves the
tape length. -/
theorem cycle_bounds (rate : ℚ) (ds : List Char) (hne : ds ≠ [])
    (hdig : ∀ c ∈ ds, c.isDigit = true)
    (pre : List Char) (x : Char) (R' : List Char) (hx : x = '#' ∨ x = 'B')
    (S : Sched) (hS1 : 0 < S.machine_times.length)
    (hS2 : S.machine_schedules.length = S.machine_times.length)
    (hrate : rate ≠ 0) (E : List Int)
    (st : TMState) (hst : st = .START ∨ st = .NEXT) :
    ∀ j, j ≤ 3 * ds.length + 3 →
    ∃ c, runFor rate j ⟨pre ++ '#' :: ds ++ x :: R', (pre.length : Int), st, [], S, E⟩
        = .ok c ∧
      0 ≤ c.head_position ∧
      c.head_position < ((pre ++ '#' :: ds ++ x :: R').length : Int) ∧
      c.current_state.is_final = false ∧
      c.tape.length = (pre ++ '#' :: ds ++ x :: R').length := by
  obtain ⟨ds', dL, rfl⟩ : ∃ ds' dL, ds = ds' ++ [dL] := by
    rcases List.eq_nil_or_concat ds with h | ⟨L, b, h⟩
    · exact absurd h hne
    · exact ⟨L, b, by simpa [List.concat_eq_append] using h⟩
  have hdL : dL.isDigit = true := hdig dL (by simp)
  have hdig' : ∀ c ∈ ds', c.isDigit = true := fun c hc => hdig c (by simp [hc])
  have hstf : st.is_final = false := by
    rcases hst with rfl | rfl <;> rfl
  have hA : runFor rate 1
        ⟨pre ++ '#' :: (ds' ++ [dL]) ++ x :: R', (pre.length : Int), st, [], S, E⟩ =
      .ok ⟨(pre ++ ['#']) ++ (ds' ++ [dL]) ++ x :: R',
        (((pre ++ ['#']).length : Nat) : Int), .READ, [], S, E⟩ := by
    rw [show pre ++ '#' :: (ds' ++ [dL]) ++ x :: R'
        = pre ++ '#' :: ((ds' ++ [dL]) ++ x :: R') by simp,
      entry_step rate pre ((ds' ++ [dL]) ++ x :: R') S E st hst]
    simp
  have hB : runFor rate (ds'.length + 1)
        ⟨(pre ++ ['#']) ++ (ds' ++ [dL]) ++ x :: R',
          (((pre ++ ['#']).length : Nat) : Int), .READ, [], S, E⟩ =
      .ok ⟨((pre ++ ['#']) ++ (ds' ++ [dL])) ++ x :: R',
        ((((pre ++ ['#']) ++ (ds' ++ [dL])).length : Nat) : Int), .READ, ds' ++ [dL], S, E⟩ := by
    rw [read_phase rate (ds' ++ [dL]) hdig (pre ++ ['#']) (x :: R') [] S E (ds'.length + 1)
      (by simp)]
    simp [take_len_append_singleton]
    omega
  have hC : runFor rate 1
        ⟨((pre ++ ['#']) ++ (ds' ++ [dL])) ++ x :: R',
          ((((pre ++ ['#']) ++ (ds' ++ [dL])).length : Nat) : Int), .READ, ds' ++ [dL], S, E⟩ =
      .ok ⟨((pre ++ ['#']) ++ ds') ++ dL :: (x :: R'),
        ((((pre ++ ['#']) ++ ds').length : Nat) : Int), .MARK, ds' ++ [dL], S, E⟩ := by
    rw [read_to_mark_step rate ((pre ++ ['#']) ++ (ds' ++ [dL])) R' x hx (ds' ++ [dL]) S E]
    simp
    omega
  have hD : runFor rate 1
        ⟨((pre ++ ['#']) ++ ds') ++ dL :: (x :: R'),
          ((((pre ++ ['#']) ++ ds').length : Nat) : Int), .MARK, ds' ++ [dL], S, E⟩ =
      .ok ⟨(pre ++ ['#']) ++ ds' ++ ('*' :: x :: R'),
        (((pre ++ ['#']).length + ds'.length : Nat) : Int) - 1, .MARK, [],
        assignOrder rate S (digitsToNat (ds' ++ [dL]) : Int),
        E ++ [(digitsToNat (ds' ++ [dL]) : Int)]⟩ := by
    rw [commit_step rate ((pre ++ ['#']) ++ ds') (x :: R') dL hdL (ds' ++ [dL]) (by simp)
      S hS1 hS2 hrate E]
    simp
    omega
  have hE : runFor rate ds'.length
        ⟨(pre ++ ['#']) ++ ds' ++ ('*' :: x :: R'),
          (((pre ++ ['#']).length + ds'.length : Nat) : Int) - 1, .MARK, [],
          assignOrder rate S (digitsToNat (ds' ++ [dL]) : Int),
          E ++ [(digitsToNat (ds' ++ [dL]) : Int)]⟩ =
      .ok ⟨pre ++ '#' :: (List.replicate (ds'.length + 1) '*' ++ x :: R'),
        (pre.length : Int), .MARK, [],
        assignOrder rate S (digitsToNat (ds' ++ [dL]) : Int),
        E ++ [(digitsToNat (ds' ++ [dL]) : Int)]⟩ := by
    rw [mark_phase rate ds' hdig' (pre ++ ['#']) ('*' :: x :: R') _ _ ds'.length (le_refl _)]
    have hrep : List.replicate ds'.length '*' ++ '*' :: (x :: R')
        = List.replicate (ds'.length + 1) '*' ++ (x :: R') := by
      rw [List.replicate_succ']
      simp
    simp [hrep]
    omega
  have hF : runFor rate 1
        ⟨pre ++ '#' :: (List.replicate (ds'.length + 1) '*' ++ x :: R'),
          (pre.length : Int), .MARK, [],
          assignOrder rate S (digitsToNat (ds' ++ [dL]) : Int),
          E ++ [(digitsToNat (ds' ++ [dL]) : Int)]⟩ =
      .ok ⟨(pre ++ ['#']) ++ List.replicate (ds'.length + 1) '*' ++ (x :: R'),
        (((pre ++ ['#']).length : Nat) : Int), .NEXT, [],
        assignOrder rate S (digitsToNat (ds' ++ [dL]) : Int),
        E ++ [(digitsToNat (ds' ++ [dL]) : Int)]⟩ := by
    rw [mark_to_next_step rate pre (List.replicate (ds'.length + 1) '*' ++ x :: R') _ _]
    simp
  intro j hj
  have hlen_tape : (pre ++ '#' :: (ds' ++ [dL]) ++ x :: R').length
      = pre.length + 1 + (ds'.length + 1) + 1 + R'.length := by
    simp
    omega
  rcases Nat.eq_zero_or_pos j with rfl | hj0
  · refine ⟨_, runFor_zero rate _, by simp, ?_, hstf, rfl⟩
    rw [hlen_tape]
    push_cast
    omega
  rcases le_or_lt j (ds'.length + 2) with hj1 | hj1
  · -- READ phase: j = 1 + j₁ with j₁ ≤ ds'.length + 1
    rw [show j = 1 + (j - 1) by omega, runFor_trans hA,
      read_phase rate (ds' ++ [dL]) hdig (pre ++ ['#']) (x :: R') [] S E (j - 1)
        (by simp; omega)]
    refine ⟨_, rfl, by simp; omega, ?_, rfl, by simp⟩
    rw [hlen_tape]
    simp
    omega
  rcases Nat.lt_or_ge j (ds'.length + 4) with hj2 | hj2
  · -- j = ds'.length + 3: the READ→MARK boundary has just run
    rw [show j = 1 + ((ds'.length + 1) + 1) by omega, runFor_trans hA,
      runFor_trans hB, hC]
    refine ⟨_, rfl, by simp; omega, ?_, rfl, by simp⟩
    rw [hlen_tape]
    simp
    omega
  rcases le_or_lt j (2 * ds'.length + 4) with hj3 | hj3
  · -- MARK phase: j = (ds'.length + 4) + j₂ with j₂ ≤ ds'.length
    rw [show j = 1 + ((ds'.length + 1) + (1 + (1 + (j - (ds'.length + 4))))) by omega,
      runFor_trans hA, runFor_trans hB, runFor_trans hC, runFor_trans hD,
      mark_phase rate ds' hdig' (pre ++ ['#']) ('*' :: x :: R') _ _ (j - (ds'.length + 4))
        (by omega)]
    refine ⟨_, rfl, ?_, ?_, rfl, by simp; omega⟩
    · simp
      omega
    · rw [hlen_tape]
      simp
      omega
  rcases Nat.lt_or_ge j (2 * ds'.length + 6) with hj4 | hj4
  · -- j = 2·ds'.length + 5: the MARK→NEXT boundary has just run
    rw [show j = 1 + ((ds'.length + 1) + (1 + (1 + (ds'.length + 1)))) by omega,
      runFor_trans hA, runFor_trans hB, runFor_trans hC, runFor_trans hD,
      runFor_trans hE, hF]
    refine ⟨_, rfl, by simp; omega, ?_, rfl, by simp; omega⟩
    rw [hlen_tape]
    simp
    omega
  · -- NEXT phase: j = (2·ds'.length + 6) + j₃ with j₃ ≤ ds'.length + 1
    rw [show j = 1 + ((ds'.length + 1) + (1 + (1 + (ds'.length + (1
          + (j - (2 * ds'.length + 5))))))) by omega,
      runFor_trans hA, runFor_trans hB, runFor_trans hC, runFor_trans hD,
      runFor_trans hE, runFor_trans hF,
      next_phase rate (ds'.length + 1) (pre ++ ['#']) (x :: R') _ _ (j - (2 * ds'.length + 5))
        (by
          have hb : (ds' ++ [dL]).length = ds'.length + 1 := by simp
          omega)]
    have hb : (ds' ++ [dL]).length = ds'.length + 1 := by simp
    have hf : j - (2 * ds'.length + 5) ≤ ds'.length + 1 := by omega
    refine ⟨_, rfl, by simp; omega, ?_, rfl, ?_⟩
    · rw [hlen_tape]
      simp
      omega
    · rw [hlen_tape]
      simp
      omega

/-- Every configuration visited while processing the encoded region keeps
the head inside the tape, stays non-final and preserves the tape
length. -/
theorem loop_bounds (rate : ℚ) (hrate : rate ≠ 0) :
    ∀ (ords : List Int), (∀ o ∈ ords, 0 ≤ o) →
    ∀ (pre : List Char) (x : Char) (R' : List Char), x = '#' ∨ x = 'B' →
    ∀ (S : Sched), 0 < S.machine_times.length →
      S.machine_schedules.length = S.machine_times.length →
    ∀ (E : List Int) (st : TMState), st = .START ∨ st = .NEXT →
    ∀ j, j ≤ stepsFor ords →
    ∃ c, runFor rate j ⟨pre ++ encodeOrders ords ++ x :: R', (pre.length : Int), st, [], S, E⟩
        = .ok c ∧
      0 ≤ c.head_position ∧
      c.head_position < ((pre ++ encodeOrders ords ++ x :: R').length : Int) ∧
      c.current_state.is_final = false ∧
      c.tape.length = (pre ++ encodeOrders ords ++ x :: R').length := by
  intro ords
  induction ords with
  | nil =>
    intro _ pre x R' hx S hS1 hS2 E st hst j hj
    have hj0 : j = 0 := by simpa [stepsFor] using hj
    subst hj0
    have hstf : st.is_final = false := by
      rcases hst with rfl | rfl <;> rfl
    refine ⟨_, runFor_zero rate _, by simp, ?_, hstf, rfl⟩
    simp [encodeOrders]
  | cons o t ih =>
    intro hpos pre x R' hx S hS1 hS2 E st hst j hj
    have ho : (0 : Int) ≤ o := hpos o (List.mem_cons_self _ _)
    have hval : ((digitsToNat (intStr o) : Nat) : Int) = o := digitsToNat_intStr ho
    obtain ⟨x₂, R₂, hxR, hx₂⟩ :
        ∃ x₂ R₂, encodeOrders t ++ x :: R' = x₂ :: R₂ ∧ (x₂ = '#' ∨ x₂ = 'B') := by
      cases t with
      | nil => exact ⟨x, R', by simp [encodeOrders], hx⟩
      | cons o₂ t' =>
        exact ⟨'#', (intStr o₂ ++ encodeOrders t') ++ x :: R', by simp [encodeOrders], Or.inl rfl⟩
    have htape : pre ++ encodeOrders (o :: t) ++ x :: R'
        = pre ++ '#' :: intStr o ++ x₂ :: R₂ := by
      rw [← hxR]
      simp [encodeOrders]
    rw [htape]
    rcases le_or_lt j (3 * (intStr o).length + 3) with hjc | hjc
    · exact cycle_bounds rate (intStr o) (intStr_ne_nil ho) (intStr_isDigit ho)
        pre x₂ R₂ hx₂ S hS1 hS2 hrate E st hst j hjc
    · have hcyc := cycle_exact rate (intStr o) (intStr_ne_nil ho) (intStr_isDigit ho)
        pre x₂ R₂ hx₂ S hS1 hS2 hrate E st hst
      rw [hval] at hcyc
      have hcyc' : runFor rate (3 * (intStr o).length + 3)
            ⟨pre ++ '#' :: intStr o ++ x₂ :: R₂, (pre.length : Int), st, [], S, E⟩ =
          .ok ⟨(pre ++ '#' :: List.replicate (intStr o).length '*')
              ++ encodeOrders t ++ x :: R',
            (((pre ++ '#' :: List.replicate (intStr o).length '*').length : Nat) : Int),
            .NEXT, [], assignOrder rate S o, E ++ [o]⟩ := by
        rw [hcyc, ← hxR]
        simp
        omega
      have hS1' : 0 < (assignOrder rate S o).machine_times.length := by
        rw [assignOrder_times_length]
        exact hS1
      have hS2' : (assignOrder rate S o).machine_schedules.length
          = (assignOrder rate S o).machine_times.length := by
        rw [assignOrder_times_length, assignOrder_schedules_length, hS2]
      rw [show j = (3 * (intStr o).length + 3) + (j - (3 * (intStr o).length + 3)) by omega,
        runFor_trans hcyc']
      obtain ⟨c, hc, hb1, hb2, hb3, hb4⟩ := ih
        (fun c hc => hpos c (List.mem_cons_of_mem _ hc))
        (pre ++ '#' :: List.replicate (intStr o).length '*') x R' hx
        (assignOrder rate S o) hS1' hS2' (E ++ [o]) .NEXT (Or.inr rfl)
        (j - (3 * (intStr o).length + 3))
        (by
          have hsteps : stepsFor (o :: t) = (3 * (intStr o).length + 3) + stepsFor t := by
            simp [stepsFor]
          omega)
      refine ⟨c, hc, hb1, ?_, hb3, ?_⟩
      · have hlen_eq : ((pre ++ '#' :: List.replicate (intStr o).length '*')
            ++ encodeOrders t ++ x :: R').length
            = (pre ++ '#' :: intStr o ++ x₂ :: R₂).length := by
          rw [← hxR]
          simp
        rw [← hlen_eq]
        exact hb2
      · have hlen_eq : ((pre ++ '#' :: List.replicate (intStr o).length '*')
            ++ encodeOrders t ++ x :: R').length
            = (pre ++ '#' :: intStr o ++ x₂ :: R₂).length := by
          rw [← hxR]
          simp
        rw [← hlen_eq]
        exact hb4

/-- C5.  During a run on a well-formed tape (each number preceded by its
`#`), every configuration at which the loop body performs a read or
write has its head inside `[0, length-1]`: the left-moving `MARK` state
never moves the head below `0`, no access is out of range, and the tape
never changes length.  (After the final transition into `FINAL` the head
is one past the end, but the loop has exited and no access happens.) -/
theorem head_stays_in_bounds (num_machines : Int) (rate : ℚ) (orders : List Int)
    (hnm : 0 < num_machines) (hrate : 0 < rate) (hpos : ∀ o ∈ orders, 0 < o) :
    ∀ m c', runFor rate m (initConfig num_machines orders) = .ok c' →
      c'.current_state.is_final = false →
      0 ≤ c'.head_position ∧
      c'.head_position < ((prepare_tape orders).length : Int) ∧
      c'.tape.length = (prepare_tape orders).length := by
  intro m c' hok hnf
  have hpos' : ∀ o ∈ orders, (0 : Int) ≤ o := fun o ho => le_of_lt (hpos o ho)
  have hS1 : 0 < (initSched num_machines).machine_times.length := by
    simp [initSched]
    omega
  have hS2 : (initSched num_machines).machine_schedules.length
      = (initSched num_machines).machine_times.length := by
    simp [initSched]
  have hinit : initConfig num_machines orders =
      ⟨([] : List Char) ++ encodeOrders orders ++ 'B' :: [],
        ((([] : List Char).length : Nat) : Int), .START, [], initSched num_machines, []⟩ := by
    simp [initConfig, prepare_tape, encodeOrders]
  rcases le_or_lt m (stepsFor orders) with hm | hm
  · obtain ⟨c, hc, hb1, hb2, hb3, hb4⟩ := loop_bounds rate (ne_of_gt hrate) orders hpos'
      [] 'B' [] (Or.inr rfl) (initSched num_machines) hS1 hS2 [] .START (Or.inl rfl) m hm
    rw [hinit, hc] at hok
    injection hok with hcc
    subst hcc
    have hlen : (([] : List Char) ++ encodeOrders orders ++ 'B' :: []).length
        = (prepare_tape orders).length := by
      simp [prepare_tape, encodeOrders]
    exact ⟨hb1, hlen ▸ hb2, hlen ▸ hb4⟩
  · exfalso
    have hrun := run_exact num_machines rate orders hnm (ne_of_gt hrate) hpos'
    have h2 := runFor_trans hrun (m - totalFuel orders)
    have ht : totalFuel orders = stepsFor orders + 1 := rfl
    rw [show totalFuel orders + (m - totalFuel orders) = m by omega] at h2
    rw [runFor_final
      (c := ⟨markedTape orders, ((markedTape orders).length : Int), .FINAL, [],
        foldAssign rate (initSched num_machines) orders, orders⟩) rfl] at h2
    rw [hok] at h2
    injection h2 with hcc
    rw [hcc] at hnf
    simp [TMState.is_final] at hnf

/-- Witness for C5 at `num_machines = 2`, `rate = 10`,
`orders = [5, 12]`. -/
theorem head_stays_in_bounds_witness :
    (0 : Int) < 2 ∧ (0 : ℚ) < 10 ∧ (∀ o ∈ ([5, 12] : List Int), 0 < o) ∧
    ∀ m c', runFor 10 m (initConfig 2 [5, 12]) = .ok c' →
      c'.current_state.is_final = false →
      0 ≤ c'.head_position ∧
      c'.head_position < ((prepare_tape [5, 12]).length : Int) ∧
      c'.tape.length = (prepare_tape [5, 12]).length :=
  ⟨by norm_num, by norm_num, by decide,
    head_stays_in_bounds 2 10 [5, 12] (by norm_num) (by norm_num) (by decide)⟩
